import Mathlib

/-!
# Verification of the projectloupe thumbnail cache subsystem

Shallow embedding of `crates/thumbnail-cache` (files `lru.rs`, `cache.rs`,
`prefetch.rs`, `generate.rs`, `lib.rs`) together with proofs about the
spec's claims.

Conventions:
* Rust `usize` is modelled as `Nat`; `saturating_add` saturates at
  `usizeMax = 2 ^ 64 - 1`, and `Nat` subtraction is already saturating at 0,
  exactly like `saturating_sub`.
* `HashMap<K, (V, usize, u64)>` is modelled as an association list of
  `LruEntry` values.  `HashMap` keys are unique; the operations below touch /
  replace / erase the first entry with a matching key, which agrees with the
  `HashMap` semantics on every state whose keys are distinct (an invariant of
  all reachable states, proved below where it is needed).
* External effects (the filesystem, `exiftool`, JPEG decoding, disk writes)
  are modelled as oracle environments passed to the functions that use them.
-/

namespace ProjectLoupe

/-- `usize::MAX` on the 64-bit targets the crate is built for. -/
def usizeMax : Nat := 2 ^ 64 - 1

/-- Rust `usize::saturating_add`. -/
def satAdd (a b : Nat) : Nat := min (a + b) usizeMax

/-! ## `lru.rs`: byte-budgeted LRU cache

`LruCacheInner<K, V>` holds `data: HashMap<K, (V, usize, u64)>` (value,
byte size, access time), `total_bytes`, `max_bytes` and `access_counter`.
-/

/-- One `HashMap` entry of `LruCacheInner.data`: key ↦ (value, byte_size, access_time). -/
structure LruEntry (K V : Type) where
  key : K
  value : V
  byte_size : Nat
  access_time : Nat
deriving DecidableEq, Repr

/-- The state behind the mutex of `LruCache<K, V>` (struct `LruCacheInner`). -/
structure LruCacheInner (K V : Type) where
  data : List (LruEntry K V)
  total_bytes : Nat
  max_bytes : Nat
  access_counter : Nat
deriving DecidableEq, Repr

variable {K V : Type}

/-- `self.data.get(&key)`: the (unique) entry stored under `key`. -/
def lookupEntry [DecidableEq K] (data : List (LruEntry K V)) (k : K) :
    Option (LruEntry K V) :=
  data.find? (fun e => decide (e.key = k))

/-- `LruCache::new(max_bytes)`. -/
def LruCacheInner.new (K V : Type) (max_bytes : Nat) : LruCacheInner K V :=
  { data := [], total_bytes := 0, max_bytes := max_bytes, access_counter := 0 }

/-- The `get_mut` update inside `LruCacheInner::get`: stamp the entry stored
under `k` with access time `t`. -/
def touchEntry [DecidableEq K] : List (LruEntry K V) → K → Nat → List (LruEntry K V)
  | [], _, _ => []
  | x :: xs, k, t =>
    if x.key = k then { x with access_time := t } :: xs else x :: touchEntry xs k t

/-- `LruCacheInner::get` (lru.rs:84-103): on a hit, clone the value, advance
`access_counter` and stamp the entry; on a miss return `none`. -/
def LruCacheInner.get [DecidableEq K] (c : LruCacheInner K V) (k : K) :
    Option V × LruCacheInner K V :=
  match lookupEntry c.data k with
  | some e =>
      (some e.value,
        { c with
          access_counter := c.access_counter + 1,
          data := touchEntry c.data k (c.access_counter + 1) })
  | none => (none, c)

/-- `HashMap::insert` on the `data` field: replace the entry stored under
`e.key` if present, otherwise add the entry. -/
def insertEntry [DecidableEq K] : List (LruEntry K V) → LruEntry K V → List (LruEntry K V)
  | [], e => [e]
  | x :: xs, e => if x.key = e.key then e :: xs else x :: insertEntry xs e

/-- The scan of `LruCacheInner::evict_lru` (lru.rs:130-139): the entry with
the strictly smallest access time, earlier entries winning ties. -/
def findOldest : List (LruEntry K V) → Option (LruEntry K V)
  | [] => none
  | x :: xs => some (xs.foldl (fun b y => if y.access_time < b.access_time then y else b) x)

/-- `LruCacheInner::evict_lru` (lru.rs:125-146): remove the entry with the
oldest access time and subtract its recorded byte size. -/
def LruCacheInner.evictLru [DecidableEq K] (c : LruCacheInner K V) : LruCacheInner K V :=
  match findOldest c.data with
  | none => c
  | some old =>
    match lookupEntry c.data old.key with
    | none => c
    | some rem =>
        { c with
          data := c.data.eraseP (fun e => decide (e.key = old.key)),
          total_bytes := c.total_bytes - rem.byte_size }

/-- The `while total_bytes > max_bytes && !data.is_empty()` loop of
`LruCacheInner::insert` (lru.rs:120-122), fuelled; `insert` supplies fuel
`data.length`, which is enough for the loop to run to completion. -/
def evictLoop [DecidableEq K] : Nat → LruCacheInner K V → LruCacheInner K V
  | 0, c => c
  | fuel + 1, c =>
    if c.max_bytes < c.total_bytes ∧ c.data.isEmpty = false then
      evictLoop fuel c.evictLru
    else c

/-- `LruCacheInner::insert` (lru.rs:105-123): advance the counter, adjust
`total_bytes` with saturating arithmetic, store the entry, then evict
least-recently-used entries while over budget. -/
def LruCacheInner.insert [DecidableEq K] (c : LruCacheInner K V) (k : K) (v : V)
    (byte_size : Nat) : LruCacheInner K V :=
  let ac := c.access_counter + 1
  let tb :=
    match lookupEntry c.data k with
    | some old => satAdd (c.total_bytes - old.byte_size) byte_size
    | none => satAdd c.total_bytes byte_size
  let data' := insertEntry c.data ⟨k, v, byte_size, ac⟩
  evictLoop data'.length
    { data := data', total_bytes := tb, max_bytes := c.max_bytes, access_counter := ac }

/-- `LruCacheInner::clear` (lru.rs:148-152). -/
def LruCacheInner.clear (c : LruCacheInner K V) : LruCacheInner K V :=
  { c with data := [], total_bytes := 0, access_counter := 0 }

/-- The operations a client can perform on one `LruCache` instance. -/
inductive LruOp (K V : Type) where
  | insert (k : K) (v : V) (byte_size : Nat)
  | get (k : K)
  | clear

/-- Run one operation against the cache state. -/
def applyLruOp [DecidableEq K] (c : LruCacheInner K V) : LruOp K V → LruCacheInner K V
  | .insert k v s => c.insert k v s
  | .get k => (c.get k).2
  | .clear => c.clear

/-- Run a sequence of operations against a fresh cache with budget `B`. -/
def runLruOps [DecidableEq K] (B : Nat) (ops : List (LruOp K V)) : LruCacheInner K V :=
  ops.foldl applyLruOp (LruCacheInner.new K V B)

/-- Sum of the recorded byte sizes of the retained entries. -/
def sumSizes (data : List (LruEntry K V)) : Nat :=
  (data.map (·.byte_size)).sum

/-- Largest recorded byte size among the retained entries (0 if none). -/
def maxSize (data : List (LruEntry K V)) : Nat :=
  (data.map (·.byte_size)).foldr max 0

/-- Total of the `byte_size` arguments of the `insert` operations in a
sequence of LRU operations. -/
def insertSizes : List (LruOp K V) → Nat
  | [] => 0
  | .insert _ _ s :: rest => s + insertSizes rest
  | _ :: rest => insertSizes rest

/-! ### Basic accounting lemmas for the LRU list operations -/

@[simp] theorem sumSizes_nil : sumSizes ([] : List (LruEntry K V)) = 0 := rfl

@[simp] theorem sumSizes_cons (x : LruEntry K V) (xs : List (LruEntry K V)) :
    sumSizes (x :: xs) = x.byte_size + sumSizes xs := by
  simp [sumSizes]

theorem sumSizes_sublist {l₁ l₂ : List (LruEntry K V)} (h : l₁.Sublist l₂) :
    sumSizes l₁ ≤ sumSizes l₂ := by
  induction h with
  | slnil => exact Nat.le_refl _
  | cons x _ ih => rw [sumSizes_cons]; omega
  | cons₂ x _ ih => rw [sumSizes_cons, sumSizes_cons]; omega

theorem insertEntry_sum_none [DecidableEq K] {data : List (LruEntry K V)} {e : LruEntry K V}
    (h : lookupEntry data e.key = none) :
    sumSizes (insertEntry data e) = sumSizes data + e.byte_size := by
  induction data with
  | nil => simp [insertEntry]
  | cons x xs ih =>
      by_cases hk : x.key = e.key
      · exact absurd h (by simp [lookupEntry, List.find?_cons_of_pos, hk])
      · rw [lookupEntry, List.find?_cons_of_neg _ (by simpa using hk)] at h
        simp only [insertEntry, if_neg hk, sumSizes_cons, ih h]
        omega

theorem insertEntry_sum_some [DecidableEq K] {data : List (LruEntry K V)}
    {e old : LruEntry K V} (h : lookupEntry data e.key = some old) :
    old.byte_size ≤ sumSizes data ∧
      sumSizes (insertEntry data e) + old.byte_size = sumSizes data + e.byte_size := by
  induction data with
  | nil => simp [lookupEntry] at h
  | cons x xs ih =>
      by_cases hk : x.key = e.key
      · rw [lookupEntry, List.find?_cons_of_pos _ (by simpa using hk)] at h
        cases h
        constructor
        · simp
        · simp only [insertEntry, if_pos hk, sumSizes_cons]; omega
      · rw [lookupEntry, List.find?_cons_of_neg _ (by simpa using hk)] at h
        obtain ⟨h1, h2⟩ := ih h
        constructor
        · simp only [sumSizes_cons]; omega
        · simp only [insertEntry, if_neg hk, sumSizes_cons]; omega

theorem find?_eraseP_sum {p : LruEntry K V → Bool} {data : List (LruEntry K V)}
    {rem : LruEntry K V} (h : data.find? p = some rem) :
    rem.byte_size ≤ sumSizes data ∧
      sumSizes (data.eraseP p) + rem.byte_size = sumSizes data ∧
      (data.eraseP p).length + 1 = data.length := by
  induction data with
  | nil => simp at h
  | cons x xs ih =>
      cases hp : p x with
      | true =>
          rw [List.find?_cons_of_pos _ hp] at h
          cases h
          refine ⟨by simp, ?_, ?_⟩ <;> simp [List.eraseP_cons, hp, Nat.add_comm]
      | false =>
          rw [List.find?_cons_of_neg _ (by simp [hp])] at h
          obtain ⟨h1, h2, h3⟩ := ih h
          refine ⟨by simp only [sumSizes_cons]; omega, ?_, ?_⟩ <;>
            simp only [List.eraseP_cons, hp, cond_false, sumSizes_cons, List.length_cons] <;>
              omega

@[simp] theorem touchEntry_sum [DecidableEq K] (data : List (LruEntry K V)) (k : K) (t : Nat) :
    sumSizes (touchEntry data k t) = sumSizes data := by
  induction data with
  | nil => rfl
  | cons x xs ih =>
      by_cases hk : x.key = k <;> simp [touchEntry, hk, ih]

@[simp] theorem touchEntry_keys [DecidableEq K] (data : List (LruEntry K V)) (k : K) (t : Nat) :
    (touchEntry data k t).map (·.key) = data.map (·.key) := by
  induction data with
  | nil => rfl
  | cons x xs ih =>
      by_cases hk : x.key = k <;> simp [touchEntry, hk, ih]

theorem mem_touchEntry [DecidableEq K] {data : List (LruEntry K V)} {k : K} {t : Nat}
    {e : LruEntry K V} (h : e ∈ touchEntry data k t) :
    ∃ x ∈ data, e.key = x.key ∧ e.value = x.value ∧ e.byte_size = x.byte_size := by
  induction data with
  | nil => simp [touchEntry] at h
  | cons x xs ih =>
      by_cases hk : x.key = k
      · simp only [touchEntry, if_pos hk, List.mem_cons] at h
        rcases h with h | h
        · exact ⟨x, List.mem_cons_self _ _, by simp [h]⟩
        · exact ⟨e, List.mem_cons_of_mem _ h, rfl, rfl, rfl⟩
      · simp only [touchEntry, if_neg hk, List.mem_cons] at h
        rcases h with h | h
        · exact ⟨x, List.mem_cons_self _ _, by simp [h]⟩
        · obtain ⟨y, hy, he⟩ := ih h
          exact ⟨y, List.mem_cons_of_mem _ hy, he⟩

theorem mem_insertEntry [DecidableEq K] {data : List (LruEntry K V)} {e y : LruEntry K V}
    (h : y ∈ insertEntry data e) : y = e ∨ y ∈ data := by
  induction data with
  | nil => simpa [insertEntry] using h
  | cons x xs ih =>
      by_cases hk : x.key = e.key
      · simp only [insertEntry, if_pos hk, List.mem_cons] at h
        rcases h with h | h
        · exact .inl h
        · exact .inr (List.mem_cons_of_mem _ h)
      · simp only [insertEntry, if_neg hk, List.mem_cons] at h
        rcases h with h | h
        · exact .inr (h ▸ List.mem_cons_self _ _)
        · rcases ih h with h | h
          · exact .inl h
          · exact .inr (List.mem_cons_of_mem _ h)

theorem findOldest_mem {data : List (LruEntry K V)} {e : LruEntry K V}
    (h : findOldest data = some e) : e ∈ data := by
  match data with
  | [] => simp [findOldest] at h
  | x :: xs =>
      simp only [findOldest, Option.some.injEq] at h
      subst h
      suffices hgen : ∀ (xs : List (LruEntry K V)) (b : LruEntry K V),
          (xs.foldl (fun b y => if y.access_time < b.access_time then y else b) b) = b ∨
          (xs.foldl (fun b y => if y.access_time < b.access_time then y else b) b) ∈ xs by
        rcases hgen xs x with h | h
        · rw [h]; exact List.mem_cons_self _ _
        · exact List.mem_cons_of_mem _ h
      intro xs
      induction xs with
      | nil => exact fun b => .inl rfl
      | cons y ys ih =>
          intro b
          simp only [List.foldl_cons]
          rcases ih (if y.access_time < b.access_time then y else b) with h | h
          · rw [h]
            by_cases hy : y.access_time < b.access_time
            · simp [hy]
            · simp [hy]
          · exact .inr (List.mem_cons_of_mem _ h)

theorem findOldest_min {data : List (LruEntry K V)} {e : LruEntry K V}
    (h : findOldest data = some e) : ∀ x ∈ data, e.access_time ≤ x.access_time := by
  match data with
  | [] => simp [findOldest] at h
  | x :: xs =>
      simp only [findOldest, Option.some.injEq] at h
      subst h
      suffices hgen : ∀ (xs : List (LruEntry K V)) (b : LruEntry K V),
          (xs.foldl (fun b y => if y.access_time < b.access_time then y else b) b).access_time
            ≤ b.access_time ∧
          ∀ x ∈ xs,
            (xs.foldl (fun b y => if y.access_time < b.access_time then y else b) b).access_time
              ≤ x.access_time by
        intro z hz
        rcases List.mem_cons.mp hz with hz | hz
        · exact hz ▸ (hgen xs x).1
        · exact (hgen xs x).2 z hz
      intro xs
      induction xs with
      | nil => exact fun b => ⟨Nat.le_refl _, by simp⟩
      | cons y ys ih =>
          intro b
          obtain ⟨ih1, ih2⟩ := ih (if y.access_time < b.access_time then y else b)
          have hb : (if y.access_time < b.access_time then y else b).access_time ≤ b.access_time := by
            split <;> omega
          have hy' : (if y.access_time < b.access_time then y else b).access_time ≤ y.access_time := by
            split <;> omega
          constructor
          · simpa only [List.foldl_cons] using le_trans ih1 hb
          · intro z hz
            simp only [List.foldl_cons]
            rcases List.mem_cons.mp hz with hz | hz
            · rw [hz]; exact le_trans ih1 hy'
            · exact ih2 z hz

@[simp] theorem findOldest_nil : findOldest ([] : List (LruEntry K V)) = none := rfl

theorem findOldest_isSome {data : List (LruEntry K V)} (h : data ≠ []) :
    ∃ e, findOldest data = some e := by
  match data with
  | [] => exact absurd rfl h
  | x :: xs => exact ⟨_, rfl⟩

theorem lookupEntry_isSome_of_mem [DecidableEq K] {data : List (LruEntry K V)}
    {e : LruEntry K V} (h : e ∈ data) : ∃ rem, lookupEntry data e.key = some rem := by
  induction data with
  | nil => simp at h
  | cons x xs ih =>
      by_cases hk : x.key = e.key
      · exact ⟨x, by simp [lookupEntry, List.find?_cons_of_pos, hk]⟩
      · rcases List.mem_cons.mp h with h | h
        · exact absurd (h ▸ rfl) hk
        · obtain ⟨rem, hrem⟩ := ih h
          exact ⟨rem, by rw [lookupEntry, List.find?_cons_of_neg _ (by simpa using hk)]; exact hrem⟩

theorem lookupEntry_mem [DecidableEq K] {data : List (LruEntry K V)} {k : K}
    {e : LruEntry K V} (h : lookupEntry data k = some e) : e ∈ data ∧ e.key = k :=
  ⟨List.mem_of_find?_eq_some h, by simpa using List.find?_some h⟩

/-! ### Well-formedness of reachable LRU states -/

/-- `HashMap` keys are distinct. -/
def NodupKeys (data : List (LruEntry K V)) : Prop := (data.map (·.key)).Nodup

/-- Every stored access time is at most the current counter. -/
def StampsLe (c : LruCacheInner K V) : Prop :=
  ∀ e ∈ c.data, e.access_time ≤ c.access_counter

/-- The recorded byte total never exceeds the actual sum of entry sizes
(saturating arithmetic can only undercount). -/
def TotalLe (c : LruCacheInner K V) : Prop := c.total_bytes ≤ sumSizes c.data

/-- Well-formedness bundle maintained by every reachable LRU state. -/
def LruWf (c : LruCacheInner K V) : Prop := NodupKeys c.data ∧ StampsLe c ∧ TotalLe c

theorem lruWf_new (B : Nat) : LruWf (LruCacheInner.new K V B) := by
  refine ⟨List.nodup_nil, ?_, Nat.le_refl _⟩
  intro e he
  simp [LruCacheInner.new] at he

theorem nodupKeys_cons {x : LruEntry K V} {xs : List (LruEntry K V)}
    (h : NodupKeys (x :: xs)) : (∀ y ∈ xs, y.key ≠ x.key) ∧ NodupKeys xs := by
  have h' : (x.key :: xs.map (·.key)).Nodup := h
  obtain ⟨h1, h2⟩ := List.nodup_cons.mp h'
  refine ⟨fun y hy hk => h1 (hk ▸ List.mem_map_of_mem (·.key) hy), h2⟩

theorem nodupKeys_cons_of {x : LruEntry K V} {xs : List (LruEntry K V)}
    (h1 : ∀ y ∈ xs, y.key ≠ x.key) (h2 : NodupKeys xs) : NodupKeys (x :: xs) := by
  show (x.key :: xs.map (·.key)).Nodup
  refine List.nodup_cons.mpr ⟨fun hc => ?_, h2⟩
  obtain ⟨y, hy, hk⟩ := List.mem_map.mp hc
  exact h1 y hy hk

theorem nodupKeys_eq_of_key_eq [DecidableEq K] {data : List (LruEntry K V)}
    (hn : NodupKeys data) {x y : LruEntry K V} (hx : x ∈ data) (hy : y ∈ data)
    (hk : x.key = y.key) : x = y := by
  induction data with
  | nil => simp at hx
  | cons a as ih =>
      obtain ⟨hna, hnas⟩ := nodupKeys_cons hn
      rcases List.mem_cons.mp hx with hx1 | hx1 <;> rcases List.mem_cons.mp hy with hy1 | hy1
      · exact hx1.trans hy1.symm
      · exfalso
        apply hna y hy1
        rw [← hk, hx1]
      · exfalso
        apply hna x hx1
        rw [hk, hy1]
      · exact ih hnas hx1 hy1

theorem mem_insertEntry_strong [DecidableEq K] {data : List (LruEntry K V)}
    (hn : NodupKeys data) {e y : LruEntry K V} (h : y ∈ insertEntry data e) :
    y = e ∨ (y ∈ data ∧ y.key ≠ e.key) := by
  induction data with
  | nil => simpa [insertEntry] using h
  | cons x xs ih =>
      obtain ⟨hna, hnas⟩ := nodupKeys_cons hn
      by_cases hk : x.key = e.key
      · simp only [insertEntry, if_pos hk, List.mem_cons] at h
        rcases h with h | h
        · exact .inl h
        · exact .inr ⟨List.mem_cons_of_mem _ h, fun hye => hna y h (hye.trans hk.symm)⟩
      · simp only [insertEntry, if_neg hk, List.mem_cons] at h
        rcases h with h | h
        · exact .inr ⟨h ▸ List.mem_cons_self _ _, h ▸ hk⟩
        · rcases ih hnas h with h | ⟨h1, h2⟩
          · exact .inl h
          · exact .inr ⟨List.mem_cons_of_mem _ h1, h2⟩

theorem keys_insertEntry_subset [DecidableEq K] {data : List (LruEntry K V)}
    {e : LruEntry K V} {k : K} (h : k ∈ (insertEntry data e).map (·.key)) :
    k = e.key ∨ k ∈ data.map (·.key) := by
  simp only [List.mem_map] at h ⊢
  obtain ⟨y, hy, hk⟩ := h
  rcases mem_insertEntry hy with h | h
  · exact .inl (hk ▸ h ▸ rfl)
  · exact .inr ⟨y, h, hk⟩

theorem nodupKeys_insertEntry [DecidableEq K] {data : List (LruEntry K V)}
    (hn : NodupKeys data) (e : LruEntry K V) : NodupKeys (insertEntry data e) := by
  induction data with
  | nil => simp [NodupKeys, insertEntry]
  | cons x xs ih =>
      obtain ⟨hna, hnas⟩ := nodupKeys_cons hn
      by_cases hk : x.key = e.key
      · simp only [insertEntry, if_pos hk]
        exact nodupKeys_cons_of (fun y hy hye => hna y hy (hye.trans hk.symm)) hnas
      · simp only [insertEntry, if_neg hk]
        refine nodupKeys_cons_of (fun y hy hyx => ?_) (ih hnas)
        rcases mem_insertEntry hy with h | h
        · subst h; exact hk hyx.symm
        · exact hna y h hyx

theorem nodupKeys_eraseP {data : List (LruEntry K V)} (hn : NodupKeys data)
    (p : LruEntry K V → Bool) : NodupKeys (data.eraseP p) := by
  have hn' : (data.map (·.key)).Nodup := hn
  show ((data.eraseP p).map (·.key)).Nodup
  exact ((List.eraseP_sublist data).map (·.key)).nodup hn'

theorem nodupKeys_touchEntry [DecidableEq K] {data : List (LruEntry K V)}
    (hn : NodupKeys data) (k : K) (t : Nat) : NodupKeys (touchEntry data k t) := by
  unfold NodupKeys
  rw [touchEntry_keys]
  exact hn

/-! ### Invariant preservation through the LRU operations -/

theorem evictLru_eq_none {c : LruCacheInner K V} [DecidableEq K]
    (h : findOldest c.data = none) : c.evictLru = c := by
  simp only [LruCacheInner.evictLru, h]

theorem evictLru_eq_some [DecidableEq K] {c : LruCacheInner K V} {old rem : LruEntry K V}
    (h1 : findOldest c.data = some old) (h2 : lookupEntry c.data old.key = some rem) :
    c.evictLru =
      { c with data := c.data.eraseP (fun e => decide (e.key = old.key)),
               total_bytes := c.total_bytes - rem.byte_size } := by
  simp only [LruCacheInner.evictLru, h1, h2]

theorem evictLru_wf [DecidableEq K] {c : LruCacheInner K V} (h : LruWf c) :
    LruWf c.evictLru ∧ (c.evictLru).max_bytes = c.max_bytes ∧
      (c.evictLru).access_counter = c.access_counter ∧
      (c.evictLru).data.Sublist c.data := by
  obtain ⟨hn, hs, ht⟩ := h
  cases hfo : findOldest c.data with
  | none =>
      rw [evictLru_eq_none hfo]
      exact ⟨⟨hn, hs, ht⟩, rfl, rfl, List.Sublist.refl _⟩
  | some old =>
      have hmem := findOldest_mem hfo
      obtain ⟨rem, hlk⟩ := lookupEntry_isSome_of_mem hmem
      rw [evictLru_eq_some hfo hlk]
      have hsub : (c.data.eraseP (fun e => decide (e.key = old.key))).Sublist c.data :=
        List.eraseP_sublist _
      obtain ⟨h1, h2, _⟩ := find?_eraseP_sum (p := fun e => decide (e.key = old.key)) hlk
      refine ⟨⟨nodupKeys_eraseP hn _, ?_, ?_⟩, rfl, rfl, hsub⟩
      · intro e he
        exact hs e (hsub.mem he)
      · show c.total_bytes - rem.byte_size ≤ sumSizes (c.data.eraseP _)
        unfold TotalLe at ht
        omega

theorem evictLoop_wf [DecidableEq K] {c : LruCacheInner K V} (h : LruWf c) (fuel : Nat) :
    LruWf (evictLoop fuel c) ∧ (evictLoop fuel c).max_bytes = c.max_bytes ∧
      (evictLoop fuel c).access_counter = c.access_counter ∧
      (evictLoop fuel c).data.Sublist c.data := by
  induction fuel generalizing c with
  | zero => exact ⟨h, rfl, rfl, List.Sublist.refl _⟩
  | succ fuel ih =>
      unfold evictLoop
      split
      · obtain ⟨hw, hm, ha, hsub⟩ := evictLru_wf h
        obtain ⟨hw', hm', ha', hsub'⟩ := ih hw
        exact ⟨hw', hm'.trans hm, ha'.trans ha, hsub'.trans hsub⟩
      · exact ⟨h, rfl, rfl, List.Sublist.refl _⟩

/-- The pre-eviction state built by the first half of `LruCacheInner::insert`. -/
def preInsertState [DecidableEq K] (c : LruCacheInner K V) (k : K) (v : V) (s : Nat) :
    LruCacheInner K V :=
  { data := insertEntry c.data ⟨k, v, s, c.access_counter + 1⟩,
    total_bytes :=
      match lookupEntry c.data k with
      | some old => satAdd (c.total_bytes - old.byte_size) s
      | none => satAdd c.total_bytes s,
    max_bytes := c.max_bytes, access_counter := c.access_counter + 1 }

theorem insert_eq [DecidableEq K] (c : LruCacheInner K V) (k : K) (v : V) (s : Nat) :
    c.insert k v s = evictLoop (preInsertState c k v s).data.length (preInsertState c k v s) :=
  rfl

theorem preInsertState_total_some [DecidableEq K] {c : LruCacheInner K V} {k : K}
    {old : LruEntry K V} (h : lookupEntry c.data k = some old) (v : V) (s : Nat) :
    (preInsertState c k v s).total_bytes = satAdd (c.total_bytes - old.byte_size) s := by
  simp only [preInsertState, h]

theorem preInsertState_total_none [DecidableEq K] {c : LruCacheInner K V} {k : K}
    (h : lookupEntry c.data k = none) (v : V) (s : Nat) :
    (preInsertState c k v s).total_bytes = satAdd c.total_bytes s := by
  simp only [preInsertState, h]

theorem totalLe_preInsert [DecidableEq K] {c : LruCacheInner K V} (ht : TotalLe c)
    (k : K) (v : V) (s : Nat) : TotalLe (preInsertState c k v s) := by
  have ht' : c.total_bytes ≤ sumSizes c.data := ht
  show (preInsertState c k v s).total_bytes
      ≤ sumSizes (insertEntry c.data ⟨k, v, s, c.access_counter + 1⟩)
  have hbs : ((⟨k, v, s, c.access_counter + 1⟩ : LruEntry K V)).byte_size = s := rfl
  cases hlk : lookupEntry c.data k with
  | some old =>
      rw [preInsertState_total_some hlk]
      obtain ⟨h1, h2⟩ := insertEntry_sum_some (e := ⟨k, v, s, c.access_counter + 1⟩) hlk
      rw [hbs] at h2
      have hsat : satAdd (c.total_bytes - old.byte_size) s ≤ (c.total_bytes - old.byte_size) + s :=
        Nat.min_le_left _ _
      omega
  | none =>
      rw [preInsertState_total_none hlk]
      have h2 := insertEntry_sum_none (e := ⟨k, v, s, c.access_counter + 1⟩) hlk
      rw [hbs] at h2
      have hsat : satAdd c.total_bytes s ≤ c.total_bytes + s := Nat.min_le_left _ _
      omega

theorem preInsert_wf [DecidableEq K] {c : LruCacheInner K V} (h : LruWf c)
    (k : K) (v : V) (s : Nat) : LruWf (preInsertState c k v s) := by
  obtain ⟨hn, hs, ht⟩ := h
  refine ⟨nodupKeys_insertEntry hn _, ?_, totalLe_preInsert ht k v s⟩
  intro e he
  show e.access_time ≤ c.access_counter + 1
  have he' : e ∈ insertEntry c.data ⟨k, v, s, c.access_counter + 1⟩ := he
  rcases mem_insertEntry he' with h | h
  · rw [h]
  · exact Nat.le_succ_of_le (hs e h)

theorem insert_wf [DecidableEq K] {c : LruCacheInner K V} (h : LruWf c)
    (k : K) (v : V) (s : Nat) :
    LruWf (c.insert k v s) ∧ (c.insert k v s).max_bytes = c.max_bytes ∧
      (c.insert k v s).access_counter = c.access_counter + 1 := by
  rw [insert_eq]
  obtain ⟨hw, hm, ha, _⟩ := evictLoop_wf (preInsert_wf h k v s) (preInsertState c k v s).data.length
  exact ⟨hw, hm, ha⟩

theorem get_eq_miss [DecidableEq K] {c : LruCacheInner K V} {k : K}
    (h : lookupEntry c.data k = none) : c.get k = (none, c) := by
  simp only [LruCacheInner.get, h]

theorem get_eq_hit [DecidableEq K] {c : LruCacheInner K V} {k : K} {e : LruEntry K V}
    (h : lookupEntry c.data k = some e) :
    c.get k = (some e.value,
      { c with access_counter := c.access_counter + 1,
               data := touchEntry c.data k (c.access_counter + 1) }) := by
  simp only [LruCacheInner.get, h]

theorem mem_touchEntry_time [DecidableEq K] {data : List (LruEntry K V)} {k : K} {t : Nat}
    {e : LruEntry K V} (h : e ∈ touchEntry data k t) : e.access_time = t ∨ e ∈ data := by
  induction data with
  | nil => simp [touchEntry] at h
  | cons x xs ih =>
      by_cases hk : x.key = k
      · simp only [touchEntry, if_pos hk, List.mem_cons] at h
        rcases h with h | h
        · exact .inl (h ▸ rfl)
        · exact .inr (List.mem_cons_of_mem _ h)
      · simp only [touchEntry, if_neg hk, List.mem_cons] at h
        rcases h with h | h
        · exact .inr (h ▸ List.mem_cons_self _ _)
        · rcases ih h with h | h
          · exact .inl h
          · exact .inr (List.mem_cons_of_mem _ h)

theorem get_wf [DecidableEq K] {c : LruCacheInner K V} (h : LruWf c) (k : K) :
    LruWf (c.get k).2 ∧ (c.get k).2.max_bytes = c.max_bytes ∧
      sumSizes (c.get k).2.data = sumSizes c.data ∧
      (c.get k).2.total_bytes = c.total_bytes := by
  obtain ⟨hn, hs, ht⟩ := h
  cases hlk : lookupEntry c.data k with
  | none =>
      rw [get_eq_miss hlk]
      exact ⟨⟨hn, hs, ht⟩, rfl, rfl, rfl⟩
  | some e =>
      rw [get_eq_hit hlk]
      refine ⟨⟨nodupKeys_touchEntry hn _ _, ?_, ?_⟩, rfl, by simp, rfl⟩
      · intro x hx
        show x.access_time ≤ c.access_counter + 1
        rcases mem_touchEntry_time hx with h | h
        · omega
        · exact Nat.le_succ_of_le (hs x h)
      · show c.total_bytes ≤ sumSizes (touchEntry c.data k (c.access_counter + 1))
        rw [touchEntry_sum]
        exact ht

theorem clear_wf (c : LruCacheInner K V) :
    LruWf c.clear ∧ c.clear.max_bytes = c.max_bytes := by
  refine ⟨⟨List.nodup_nil, ?_, Nat.le_refl _⟩, rfl⟩
  intro e he
  simp [LruCacheInner.clear] at he

theorem applyLruOp_wf [DecidableEq K] {c : LruCacheInner K V} (h : LruWf c) (op : LruOp K V) :
    LruWf (applyLruOp c op) ∧ (applyLruOp c op).max_bytes = c.max_bytes := by
  cases op with
  | insert k v s => exact ⟨(insert_wf h k v s).1, (insert_wf h k v s).2.1⟩
  | get k => exact ⟨(get_wf h k).1, (get_wf h k).2.1⟩
  | clear => exact clear_wf c

theorem foldl_lruOps_wf [DecidableEq K] (ops : List (LruOp K V)) :
    ∀ c : LruCacheInner K V, LruWf c →
      LruWf (ops.foldl applyLruOp c) ∧ (ops.foldl applyLruOp c).max_bytes = c.max_bytes := by
  induction ops with
  | nil => exact fun c h => ⟨h, rfl⟩
  | cons op rest ih =>
      intro c h
      obtain ⟨h1, h2⟩ := applyLruOp_wf h op
      obtain ⟨h3, h4⟩ := ih _ h1
      exact ⟨h3, h4.trans h2⟩

theorem runLruOps_wf [DecidableEq K] (B : Nat) (ops : List (LruOp K V)) :
    LruWf (runLruOps B ops) ∧ (runLruOps B ops).max_bytes = B :=
  foldl_lruOps_wf ops _ (lruWf_new B)

/-! ### The eviction loop runs to completion -/

theorem satAdd_le (a b : Nat) : satAdd a b ≤ a + b := Nat.min_le_left _ _

theorem satAdd_eq {a b : Nat} (h : a + b ≤ usizeMax) : satAdd a b = a + b :=
  min_eq_left h

theorem evictLru_length [DecidableEq K] {c : LruCacheInner K V} (h : c.data ≠ []) :
    (c.evictLru).data.length + 1 = c.data.length := by
  obtain ⟨old, hfo⟩ := findOldest_isSome h
  obtain ⟨rem, hlk⟩ := lookupEntry_isSome_of_mem (findOldest_mem hfo)
  rw [evictLru_eq_some hfo hlk]
  exact (find?_eraseP_sum (p := fun e => decide (e.key = old.key)) hlk).2.2

theorem evictLoop_post [DecidableEq K] : ∀ (fuel : Nat) (c : LruCacheInner K V),
    c.data.length ≤ fuel →
    (evictLoop fuel c).total_bytes ≤ (evictLoop fuel c).max_bytes ∨
      (evictLoop fuel c).data = []
  | 0, c, h => .inr (List.eq_nil_of_length_eq_zero (Nat.le_zero.mp h))
  | fuel + 1, c, h => by
      unfold evictLoop
      split
      · next hc =>
          have hne : c.data ≠ [] := by
            intro hnil
            rw [hnil] at hc
            simp at hc
          have hlen := evictLru_length hne
          have hlen' : (c.evictLru).data.length ≤ fuel := by omega
          exact evictLoop_post fuel c.evictLru hlen'
      · next hc =>
          by_cases h1 : c.total_bytes ≤ c.max_bytes
          · exact .inl h1
          · right
            rcases Bool.eq_false_or_eq_true c.data.isEmpty with hb | hb
            · exact List.isEmpty_iff.mp hb
            · exact absurd ⟨by omega, hb⟩ hc

theorem insert_budget [DecidableEq K] {c : LruCacheInner K V} (h : LruWf c)
    (k : K) (v : V) (s : Nat) : (c.insert k v s).total_bytes ≤ c.max_bytes := by
  rw [insert_eq]
  have hwf0 := preInsert_wf h k v s
  have hpost := evictLoop_post (preInsertState c k v s).data.length (preInsertState c k v s)
    (Nat.le_refl _)
  obtain ⟨⟨_, _, htle⟩, hm, _, _⟩ := evictLoop_wf hwf0 (preInsertState c k v s).data.length
  have hmc : (evictLoop (preInsertState c k v s).data.length
      (preInsertState c k v s)).max_bytes = c.max_bytes := hm
  rcases hpost with h1 | h1
  · exact hmc ▸ h1
  · have htle' : (evictLoop (preInsertState c k v s).data.length
        (preInsertState c k v s)).total_bytes ≤ sumSizes (evictLoop
        (preInsertState c k v s).data.length (preInsertState c k v s)).data := htle
    rw [h1, sumSizes_nil] at htle'
    omega

/-! ### Exact byte accounting in the absence of saturation -/

/-- Exact bookkeeping: the recorded total equals the actual sum. -/
def SumEq (c : LruCacheInner K V) : Prop := c.total_bytes = sumSizes c.data

theorem sumEq_evictLru [DecidableEq K] {c : LruCacheInner K V} (h : SumEq c) :
    SumEq c.evictLru ∧ sumSizes (c.evictLru).data ≤ sumSizes c.data := by
  cases hfo : findOldest c.data with
  | none =>
      rw [evictLru_eq_none hfo]
      exact ⟨h, Nat.le_refl _⟩
  | some old =>
      obtain ⟨rem, hlk⟩ := lookupEntry_isSome_of_mem (findOldest_mem hfo)
      rw [evictLru_eq_some hfo hlk]
      obtain ⟨h1, h2, _⟩ := find?_eraseP_sum (p := fun e => decide (e.key = old.key)) hlk
      have h' : c.total_bytes = sumSizes c.data := h
      constructor
      · show c.total_bytes - rem.byte_size = sumSizes (c.data.eraseP _)
        omega
      · show sumSizes (c.data.eraseP _) ≤ sumSizes c.data
        omega

theorem sumEq_evictLoop [DecidableEq K] (fuel : Nat) : ∀ {c : LruCacheInner K V}, SumEq c →
    SumEq (evictLoop fuel c) ∧ sumSizes (evictLoop fuel c).data ≤ sumSizes c.data := by
  induction fuel with
  | zero => exact fun h => ⟨h, Nat.le_refl _⟩
  | succ fuel ih =>
      intro c h
      unfold evictLoop
      split
      · obtain ⟨ha, hb⟩ := sumEq_evictLru h
        obtain ⟨hc', hd⟩ := ih ha
        exact ⟨hc', hd.trans hb⟩
      · exact ⟨h, Nat.le_refl _⟩

theorem sumEq_insert [DecidableEq K] {c : LruCacheInner K V} (h : SumEq c)
    (k : K) (v : V) (s : Nat) (hbound : sumSizes c.data + s ≤ usizeMax) :
    SumEq (c.insert k v s) ∧ sumSizes (c.insert k v s).data ≤ sumSizes c.data + s := by
  rw [insert_eq]
  have h' : c.total_bytes = sumSizes c.data := h
  have hbs : ((⟨k, v, s, c.access_counter + 1⟩ : LruEntry K V)).byte_size = s := rfl
  have hpre : SumEq (preInsertState c k v s) ∧
      sumSizes (preInsertState c k v s).data ≤ sumSizes c.data + s := by
    cases hlk : lookupEntry c.data k with
    | some old =>
        obtain ⟨h1, h2⟩ := insertEntry_sum_some (e := ⟨k, v, s, c.access_counter + 1⟩) hlk
        rw [hbs] at h2
        constructor
        · show (preInsertState c k v s).total_bytes
            = sumSizes (insertEntry c.data ⟨k, v, s, c.access_counter + 1⟩)
          rw [preInsertState_total_some hlk,
            satAdd_eq (by omega : c.total_bytes - old.byte_size + s ≤ usizeMax)]
          omega
        · show sumSizes (insertEntry c.data ⟨k, v, s, c.access_counter + 1⟩)
            ≤ sumSizes c.data + s
          omega
    | none =>
        have h2 := insertEntry_sum_none (e := ⟨k, v, s, c.access_counter + 1⟩) hlk
        rw [hbs] at h2
        constructor
        · show (preInsertState c k v s).total_bytes
            = sumSizes (insertEntry c.data ⟨k, v, s, c.access_counter + 1⟩)
          rw [preInsertState_total_none hlk,
            satAdd_eq (by omega : c.total_bytes + s ≤ usizeMax)]
          omega
        · show sumSizes (insertEntry c.data ⟨k, v, s, c.access_counter + 1⟩)
            ≤ sumSizes c.data + s
          omega
  obtain ⟨hp1, hp2⟩ := hpre
  obtain ⟨hq1, hq2⟩ := sumEq_evictLoop (preInsertState c k v s).data.length hp1
  exact ⟨hq1, hq2.trans hp2⟩

theorem get_total_sum [DecidableEq K] (c : LruCacheInner K V) (k : K) :
    (c.get k).2.total_bytes = c.total_bytes ∧ sumSizes (c.get k).2.data = sumSizes c.data := by
  cases hlk : lookupEntry c.data k with
  | none =>
      rw [get_eq_miss hlk]
      exact ⟨rfl, rfl⟩
  | some e =>
      rw [get_eq_hit hlk]
      exact ⟨rfl, by simp⟩

@[simp] theorem insertSizes_insert_cons (k : K) (v : V) (s : Nat) (rest : List (LruOp K V)) :
    insertSizes (LruOp.insert k v s :: rest) = s + insertSizes rest := rfl

@[simp] theorem insertSizes_get_cons (k : K) (rest : List (LruOp K V)) :
    insertSizes (LruOp.get k :: rest) = insertSizes rest := rfl

@[simp] theorem insertSizes_clear_cons (rest : List (LruOp K V)) :
    insertSizes (LruOp.clear :: rest) = insertSizes rest := rfl

theorem foldl_sumEq [DecidableEq K] (ops : List (LruOp K V)) :
    ∀ c : LruCacheInner K V, SumEq c → sumSizes c.data + insertSizes ops ≤ usizeMax →
      ∀ pre : List (LruOp K V), pre <+: ops → SumEq (pre.foldl applyLruOp c) := by
  induction ops with
  | nil =>
      intro c h _ pre hpre
      rw [List.prefix_nil.mp hpre]
      exact h
  | cons op rest ih =>
      intro c h hbound pre hpre
      cases pre with
      | nil => exact h
      | cons op' pre' =>
          obtain ⟨heq, hpre'⟩ := List.cons_prefix_cons.mp hpre
          subst heq
          rw [List.foldl_cons]
          cases op' with
          | insert k v s =>
              rw [insertSizes_insert_cons] at hbound
              have hstep := sumEq_insert h k v s (by omega)
              exact ih _ hstep.1 (by have := hstep.2; omega) pre' hpre'
          | get k =>
              rw [insertSizes_get_cons] at hbound
              obtain ⟨hg1, hg2⟩ := get_total_sum c k
              have hget : SumEq (applyLruOp c (LruOp.get k)) := by
                show (c.get k).2.total_bytes = sumSizes (c.get k).2.data
                rw [hg1, hg2]
                exact h
              exact ih _ hget (by rw [show sumSizes (applyLruOp c (LruOp.get k)).data
                = sumSizes c.data from hg2]; omega) pre' hpre'
          | clear =>
              rw [insertSizes_clear_cons] at hbound
              have hclear : SumEq (applyLruOp c LruOp.clear) := rfl
              exact ih _ hclear (by
                have : sumSizes (applyLruOp c LruOp.clear).data = 0 := rfl
                omega) pre' hpre'

/-! ## Claim C1 -/

/-- C1 counterexample: with budget `usize::MAX`, inserting two distinct keys
each with `byte_size = usize::MAX` leaves `total_bytes()` at `usize::MAX`
(the `saturating_add` clamps) while the sum of the retained entries' byte
sizes is `2 * usize::MAX`, so "at all times `total_bytes()` equals the sum of
the `byte_size` values of the currently retained entries" is false. -/
theorem lru_totalBytes_ne_sumSizes_at_saturation :
    (runLruOps usizeMax ([.insert "a" () usizeMax, .insert "b" () usizeMax] :
        List (LruOp String Unit))).total_bytes ≠
      sumSizes (runLruOps usizeMax ([.insert "a" () usizeMax, .insert "b" () usizeMax] :
        List (LruOp String Unit))).data := by
  decide

/-- C1 (amended): for every LRU cache with budget `B` and every sequence of
insert/get/clear operations whose inserted byte sizes total at most
`usize::MAX` (so that the saturating `usize` arithmetic is exact), at all
times `total_bytes()` equals the sum of the byte sizes of the currently
retained entries, and after each insert `total_bytes()` is at most
`max B (largest retained byte size)` (in fact at most `B`). -/
theorem lru_budget_and_sum_invariant {K V : Type} [DecidableEq K] (B : Nat)
    (ops : List (LruOp K V)) (hsz : insertSizes ops ≤ usizeMax) :
    (∀ pre : List (LruOp K V), pre <+: ops →
      (runLruOps B pre).total_bytes = sumSizes (runLruOps B pre).data) ∧
    (∀ (pre : List (LruOp K V)) (k : K) (v : V) (s : Nat),
      (pre ++ [LruOp.insert k v s]) <+: ops →
      (runLruOps B (pre ++ [LruOp.insert k v s])).total_bytes
        ≤ max B (maxSize (runLruOps B (pre ++ [LruOp.insert k v s])).data)) := by
  constructor
  · intro pre hpre
    exact foldl_sumEq ops (LruCacheInner.new K V B) rfl
      (by simpa [LruCacheInner.new] using hsz) pre hpre
  · intro pre k v s _
    obtain ⟨hwf, hmax⟩ := runLruOps_wf B pre
    have hb := insert_budget hwf k v s
    have heq : runLruOps B (pre ++ [LruOp.insert k v s])
        = (runLruOps B pre).insert k v s := by
      unfold runLruOps
      rw [List.foldl_append]
      rfl
    rw [heq]
    calc ((runLruOps B pre).insert k v s).total_bytes
        ≤ (runLruOps B pre).max_bytes := hb
      _ = B := hmax
      _ ≤ max B (maxSize ((runLruOps B pre).insert k v s).data) := le_max_left _ _

/-- C1 witness: a concrete in-budget run where the amended invariant holds. -/
theorem lru_budget_and_sum_invariant_witness :
    insertSizes ([.insert "a" () 4, .get "a", .insert "b" () 8] :
        List (LruOp String Unit)) ≤ usizeMax ∧
    (runLruOps 10 ([.insert "a" () 4] : List (LruOp String Unit))).total_bytes
      = sumSizes (runLruOps 10 ([.insert "a" () 4] : List (LruOp String Unit))).data ∧
    (runLruOps 10 ([.insert "a" () 4, .get "a", .insert "b" () 8] :
        List (LruOp String Unit))).total_bytes
      ≤ max 10 (maxSize (runLruOps 10 ([.insert "a" () 4, .get "a", .insert "b" () 8] :
        List (LruOp String Unit))).data) := by
  refine ⟨by decide, ?_, ?_⟩
  · exact (lru_budget_and_sum_invariant 10
      ([.insert "a" () 4, .get "a", .insert "b" () 8] : List (LruOp String Unit))
      (by decide)).1 [.insert "a" () 4] ⟨[.get "a", .insert "b" () 8], rfl⟩
  · exact (lru_budget_and_sum_invariant 10
      ([.insert "a" () 4, .get "a", .insert "b" () 8] : List (LruOp String Unit))
      (by decide)).2 [.insert "a" () 4, .get "a"] "b" () 8 ⟨[], by simp⟩

/-! ## Claim C2 -/

/-- The spec's recency scenario: inserts of A, B, C (5 bytes each), a
`get(A)`, then an insert of D (15 bytes). -/
def recencyOps : List (LruOp String Unit) :=
  [.insert "A" () 5, .insert "B" () 5, .insert "C" () 5, .get "A", .insert "D" () 15]

/-- C2 counterexample: with budget 15 as the claim states, inserting D
(15 bytes) drives `total_bytes` to 30 and the eviction loop removes B, then
C, then A before dropping to the 15-byte budget, so `get(A)` misses —
contradicting the claim that A is not evicted.  Only D remains. -/
theorem lru_recency_budget15_evicts_A :
    ((runLruOps 15 recencyOps).get "A").1 = none ∧
      (runLruOps 15 recencyOps).data.map (·.key) = ["D"] := by
  decide

/-- C2 (amended): with budget 15 the insert of D evicts B, C and A alike,
leaving only D retained.  With budget 25 — the budget the crate's own
`test_lru_ordering` test uses for this exact scenario — B alone is evicted
and A, C, D all still hit. -/
theorem lru_recency_scenario :
    ((runLruOps 15 recencyOps).data.map (·.key) = ["D"]) ∧
    ((runLruOps 25 recencyOps).get "B").1 = none ∧
    ((runLruOps 25 recencyOps).get "A").1 = some () ∧
    ((runLruOps 25 recencyOps).get "C").1 = some () ∧
    ((runLruOps 25 recencyOps).get "D").1 = some () := by
  decide

/-! ## `generate.rs`: thumbnail tiers -/

/-- `ThumbnailTier` (generate.rs:14-22). -/
inductive ThumbnailTier where
  | Micro
  | Preview
  | Loupe
deriving DecidableEq, Repr

/-- `ThumbnailTier::max_dimension` (generate.rs:25-31). -/
def ThumbnailTier.max_dimension : ThumbnailTier → Option Nat
  | .Micro => some 300
  | .Preview => some 1600
  | .Loupe => none

/-- `ThumbnailTier::jpeg_quality` (generate.rs:33-39). -/
def ThumbnailTier.jpeg_quality : ThumbnailTier → Nat
  | .Micro => 80
  | .Preview => 85
  | .Loupe => 85

/-- `ThumbnailTier::exiftool_tag` (generate.rs:41-47). -/
def ThumbnailTier.exiftool_tag : ThumbnailTier → String
  | .Micro => "PreviewImage"
  | .Preview => "PreviewImage"
  | .Loupe => "JpgFromRaw"

/-! ## `prefetch.rs`: viewport-aware prefetch order

`execute_prefetch_job` (prefetch.rs:163-212) computes a priority order over
indices of `file_paths`: the clamped viewport first, then items before the
viewport (descending) interleaved with items after it (ascending).
-/

/-- The interleaving loop of `execute_prefetch_job` (prefetch.rs:196-212):
each iteration pushes the next `before` item (if any), then the next `after`
item (if any), until both iterators are exhausted. -/
def interleave {α : Type} : List α → List α → List α
  | [], ys => ys
  | x :: xs, [] => x :: interleave xs []
  | x :: xs, y :: ys => x :: y :: interleave xs ys

@[simp] theorem interleave_nil {α : Type} (ys : List α) : interleave [] ys = ys := rfl

@[simp] theorem interleave_cons_nil {α : Type} (x : α) (xs : List α) :
    interleave (x :: xs) [] = x :: interleave xs [] := rfl

@[simp] theorem interleave_cons_cons {α : Type} (x y : α) (xs ys : List α) :
    interleave (x :: xs) (y :: ys) = x :: y :: interleave xs ys := rfl

/-- The viewport loop of `execute_prefetch_job` (prefetch.rs:177-182):
`for i in viewport_start..viewport_end { if i < file_paths.len() { push (i, true) } }`. -/
def viewportItems (len vs ve : Nat) : List (Nat × Bool) :=
  ((List.range' vs (ve - vs)).filter (fun i => decide (i < len))).map (fun i => (i, true))

/-- The `before_items` vector (prefetch.rs:189-191): indices below the
viewport, closest first. -/
def beforeItems (vs : Nat) : List (Nat × Bool) :=
  (List.range vs).map (fun i => (vs - 1 - i, false))

/-- The `after_items` vector (prefetch.rs:192-194): indices at or after the
viewport end, closest first. -/
def afterItems (len ve : Nat) : List (Nat × Bool) :=
  (List.range' ve (len - ve)).map (fun i => (i, false))

/-- The priority order computed by `execute_prefetch_job` (prefetch.rs:169-212)
from the file-list length and the raw viewport bounds (clamped internally, as
in prefetch.rs:171-172).  The `Bool` marks "in viewport". -/
def priorityOrder (len vs0 ve0 : Nat) : List (Nat × Bool) :=
  viewportItems len (min vs0 len) (min ve0 len) ++
    interleave (beforeItems (min vs0 len)) (afterItems len (min ve0 len))

theorem interleave_map {α β : Type} (f : α → β) : ∀ (xs ys : List α),
    interleave (xs.map f) (ys.map f) = (interleave xs ys).map f
  | [], ys => by simp
  | x :: xs, [] => by
      simp only [List.map_nil, List.map_cons, interleave_cons_nil]
      exact congrArg (List.cons (f x)) (interleave_map f xs [])
  | x :: xs, y :: ys => by
      simp only [List.map_cons, interleave_cons_cons]
      exact congrArg (List.cons (f x)) (congrArg (List.cons (f y)) (interleave_map f xs ys))

theorem mem_interleave {α : Type} {z : α} : ∀ {xs ys : List α},
    z ∈ interleave xs ys → z ∈ xs ∨ z ∈ ys
  | [], ys, h => .inr (by simpa using h)
  | x :: xs, [], h => by
      rcases List.mem_cons.mp h with h | h
      · exact .inl (h ▸ List.mem_cons_self _ _)
      · rcases mem_interleave h with h | h
        · exact .inl (List.mem_cons_of_mem _ h)
        · simp at h
  | x :: xs, y :: ys, h => by
      rcases List.mem_cons.mp h with h | h
      · exact .inl (h ▸ List.mem_cons_self _ _)
      · rcases List.mem_cons.mp h with h | h
        · exact .inr (h ▸ List.mem_cons_self _ _)
        · rcases mem_interleave h with h | h
          · exact .inl (List.mem_cons_of_mem _ h)
          · exact .inr (List.mem_cons_of_mem _ h)

theorem range_reverse_eq (n : Nat) :
    (List.range n).reverse = (List.range n).map (fun i => n - 1 - i) := by
  conv_lhs => rw [List.range_eq_range']
  rw [List.reverse_range']
  simp

/-- The visitation order as the spec describes it (transcribed from the
claim's words, for comparison with `priorityOrder`): the clamped viewport
ascending, then the indices below the viewport in strictly decreasing order
interleaved one-for-one with the indices at or after the viewport in strictly
increasing order. -/
def specVisitOrder (len vs ve : Nat) : List Nat :=
  List.range' vs (ve - vs) ++
    interleave (List.range vs).reverse (List.range' ve (len - ve))

theorem priorityOrder_filter_lt (len vs ve : Nat) (_hvs : vs ≤ len) (hve : ve ≤ len) :
    (List.range' vs (ve - vs)).filter (fun i => decide (i < len))
      = List.range' vs (ve - vs) := by
  rw [List.filter_eq_self]
  intro a ha
  have h := List.mem_range'_1.mp ha
  simp only [decide_eq_true_eq]
  omega

/-! ## Claim C3 -/

/-- C3: the priority order computed by `execute_prefetch_job` is exactly the
order the spec describes — the clamped viewport `[vs, ve)` in increasing
order, then the indices below `vs` in strictly decreasing order interleaved
one-for-one with the indices at or after `ve` in strictly increasing order;
in particular, for a list of length 10 with viewport `[4, 6)` the full order
is 4, 5, 3, 6, 2, 7, 1, 8, 0, 9. -/
theorem prefetch_priority_order (len vs ve : Nat) (hvs : vs ≤ len) (hve : ve ≤ len) :
    (priorityOrder len vs ve).map Prod.fst = specVisitOrder len vs ve ∧
    (priorityOrder 10 4 6).map Prod.fst = [4, 5, 3, 6, 2, 7, 1, 8, 0, 9] := by
  refine ⟨?_, by decide⟩
  unfold priorityOrder specVisitOrder viewportItems beforeItems afterItems
  rw [Nat.min_eq_left hvs, Nat.min_eq_left hve,
    priorityOrder_filter_lt len vs ve hvs hve, List.map_append]
  congr 1
  · have hc : (Prod.fst ∘ fun i : Nat => (i, true)) = fun i : Nat => i := rfl
    rw [List.map_map, hc, List.map_id']
  · rw [← interleave_map]
    rw [List.map_map, List.map_map]
    have h1 : (List.range vs).map (Prod.fst ∘ fun i => (vs - 1 - i, false))
        = (List.range vs).reverse := by
      have hc : (Prod.fst ∘ fun i : Nat => (vs - 1 - i, false))
          = fun i : Nat => vs - 1 - i := rfl
      rw [hc, ← range_reverse_eq]
    have h2 : (List.range' ve (len - ve)).map (Prod.fst ∘ fun i => (i, false))
        = List.range' ve (len - ve) := by
      have hc : (Prod.fst ∘ fun i : Nat => (i, false)) = fun i : Nat => i := rfl
      rw [hc, List.map_id']
    rw [h1, h2]

/-- C3 witness: the general refinement instantiated at the spec's example
(length 10, viewport `[4, 6)`). -/
theorem prefetch_priority_order_witness :
    4 ≤ 10 ∧ 6 ≤ 10 ∧
    ((priorityOrder 10 4 6).map Prod.fst = specVisitOrder 10 4 6 ∧
      (priorityOrder 10 4 6).map Prod.fst = [4, 5, 3, 6, 2, 7, 1, 8, 0, 9]) :=
  ⟨by decide, by decide, prefetch_priority_order 10 4 6 (by decide) (by decide)⟩

/-! ## `prefetch.rs`: job bookkeeping (claim C9) -/

/-- `PrefetchJob` (prefetch.rs:18-23). -/
structure PrefetchJob where
  file_paths : List String
  tier : ThumbnailTier
  viewport_start : Nat
  viewport_end : Nat

/-- The `viewport_total` value `start_prefetch` stores in the progress record
(prefetch.rs:83-87): computed from the job's *unclamped* bounds. -/
def viewportTotalInit (job : PrefetchJob) : Nat :=
  if job.viewport_start < job.viewport_end then job.viewport_end - job.viewport_start else 0

/-- Number of in-viewport items in the worker's priority order — the most
`viewport_completed` can ever reach, since only items marked in-viewport
(prefetch.rs:240-242) increment it, each at most once. -/
def inViewportCount (job : PrefetchJob) : Nat :=
  ((priorityOrder job.file_paths.length job.viewport_start job.viewport_end).filter
    (fun p => p.2)).length

theorem viewportItems_filter_length (len vs ve : Nat) (hvs : vs ≤ len) (hve : ve ≤ len) :
    ((viewportItems len vs ve).filter (fun p : Nat × Bool => p.2)).length = ve - vs := by
  unfold viewportItems
  rw [priorityOrder_filter_lt len vs ve hvs hve]
  have hall : ∀ a ∈ (List.range' vs (ve - vs)).map (fun i => ((i, true) : Nat × Bool)),
      (fun p : Nat × Bool => p.2) a = true := by
    intro a ha
    obtain ⟨i, _, hi⟩ := List.mem_map.mp ha
    rw [← hi]
  rw [List.filter_eq_self.mpr hall, List.length_map, List.length_range']

theorem interItems_filter_nil (len vs ve : Nat) :
    (interleave (beforeItems vs) (afterItems len ve)).filter
      (fun p : Nat × Bool => p.2) = [] := by
  rw [List.filter_eq_nil_iff]
  intro a ha
  rcases mem_interleave ha with h | h
  · unfold beforeItems at h
    obtain ⟨i, _, hi⟩ := List.mem_map.mp h
    rw [← hi]
    simp
  · unfold afterItems at h
    obtain ⟨i, _, hi⟩ := List.mem_map.mp h
    rw [← hi]
    simp

theorem inViewportCount_eq (job : PrefetchJob) :
    inViewportCount job
      = min job.viewport_end job.file_paths.length
          - min job.viewport_start job.file_paths.length := by
  unfold inViewportCount priorityOrder
  rw [List.filter_append, interItems_filter_nil, List.length_append, List.length_nil,
    viewportItems_filter_length _ _ _ (Nat.min_le_right _ _) (Nat.min_le_right _ _)]
  omega

/-! ## Claim C9 -/

/-- C9 counterexample: the claim fails for degenerate jobs whose
`viewport_end` exceeds the list length but is not above `viewport_start`:
for the job with no files and viewport bounds `[1, 1)`, `viewport_total` is
initialised to 0 (the `else` branch of prefetch.rs:83-87) and the worker has
0 in-viewport items, so `viewport_total` does **not** strictly exceed the
reachable in-viewport count, and `viewport_completed = 0` does reach
`viewport_total = 0`. -/
theorem prefetch_viewportTotal_degenerate :
    (⟨[], .Micro, 1, 1⟩ : PrefetchJob).file_paths.length
        < (⟨[], .Micro, 1, 1⟩ : PrefetchJob).viewport_end ∧
    viewportTotalInit ⟨[], .Micro, 1, 1⟩ = 0 ∧
    inViewportCount ⟨[], .Micro, 1, 1⟩ = 0 ∧
    ¬ inViewportCount ⟨[], .Micro, 1, 1⟩ < viewportTotalInit ⟨[], .Micro, 1, 1⟩ := by
  refine ⟨by decide, rfl, by decide, by decide⟩

/-- C9 (amended): `start_prefetch` initialises `viewport_total` from the
job's unclamped bounds while the worker clamps both bounds to the list
length; hence for every job with `viewport_start < viewport_end` and
`viewport_end` greater than the list length, `viewport_total` strictly
exceeds the number of in-viewport items in the worker's priority order, so
`viewport_completed` (which only in-viewport items increment, each at most
once) can never reach `viewport_total`. -/
theorem prefetch_viewportTotal_unreachable (job : PrefetchJob)
    (h1 : job.viewport_start < job.viewport_end)
    (h2 : job.file_paths.length < job.viewport_end) :
    inViewportCount job < viewportTotalInit job ∧
    ∀ vc : Nat, vc ≤ inViewportCount job → vc < viewportTotalInit job := by
  have hc := inViewportCount_eq job
  have hv : viewportTotalInit job = job.viewport_end - job.viewport_start := by
    unfold viewportTotalInit
    rw [if_pos h1]
  rw [hc, hv, Nat.min_eq_right (Nat.le_of_lt h2)]
  rcases Nat.le_total job.viewport_start job.file_paths.length with hs | hs
  · rw [Nat.min_eq_left hs]
    refine ⟨by omega, fun vc hvc => by omega⟩
  · rw [Nat.min_eq_right hs]
    refine ⟨by omega, fun vc hvc => by omega⟩

/-- C9 witness: a job over two files with unclamped viewport `[0, 3)`. -/
theorem prefetch_viewportTotal_unreachable_witness :
    (⟨["a", "b"], .Micro, 0, 3⟩ : PrefetchJob).viewport_start
        < (⟨["a", "b"], .Micro, 0, 3⟩ : PrefetchJob).viewport_end ∧
    (⟨["a", "b"], .Micro, 0, 3⟩ : PrefetchJob).file_paths.length
        < (⟨["a", "b"], .Micro, 0, 3⟩ : PrefetchJob).viewport_end ∧
    (inViewportCount ⟨["a", "b"], .Micro, 0, 3⟩
        < viewportTotalInit ⟨["a", "b"], .Micro, 0, 3⟩ ∧
      ∀ vc : Nat, vc ≤ inViewportCount ⟨["a", "b"], .Micro, 0, 3⟩ →
        vc < viewportTotalInit ⟨["a", "b"], .Micro, 0, 3⟩) :=
  ⟨by decide, by decide,
    prefetch_viewportTotal_unreachable ⟨["a", "b"], .Micro, 0, 3⟩ (by decide) (by decide)⟩

/-! ## `prefetch.rs`: the scheduler's job slot (claim C5)

Only the slot discipline of `PrefetchScheduler` is modelled: the worker
thread mutates the shared progress record concurrently, but the
`current_job` slot itself is touched exclusively by `start_prefetch` and
`cancel_current_job`, so what `get_progress` can observe after a cancel is
determined sequentially.
-/

/-- `PrefetchProgress` (prefetch.rs:27-35). -/
structure PrefetchProgress where
  total_files : Nat
  completed_files : Nat
  failed_files : Nat
  viewport_completed : Nat
  viewport_total : Nat
  is_cancelled : Bool
  is_finished : Bool
deriving DecidableEq, Repr

/-- `PrefetchJobHandle` (prefetch.rs:61-65); the thread handle itself is not
modelled, only the cancellation flag and the progress record. -/
structure PrefetchJobHandle where
  cancel_flag : Bool
  progress : PrefetchProgress
deriving DecidableEq, Repr

/-- The scheduler's single mutable slot (prefetch.rs:56-59). -/
structure SchedulerState where
  current_job : Option PrefetchJobHandle
deriving DecidableEq, Repr

/-- `cancel_current_job` (prefetch.rs:122-138): `take()` empties the slot;
if a handle was present its cancellation flag is set, its progress record is
marked `is_cancelled`, and the worker thread is joined.  The discarded handle
(as cancel leaves it) is returned for specification purposes; the join is
thread scheduling and is outside this sequential model. -/
def cancelCurrentJob (s : SchedulerState) : SchedulerState × Option PrefetchJobHandle :=
  match s.current_job with
  | none => (⟨none⟩, none)
  | some h =>
      (⟨none⟩,
        some { cancel_flag := true, progress := { h.progress with is_cancelled := true } })

/-- `start_prefetch` (prefetch.rs:78-119): cancel any existing job, then
install a fresh handle whose progress record is initialised as at
prefetch.rs:89-97.  The spawned worker's later updates to the shared record
are not part of this sequential model. -/
def startPrefetch (s : SchedulerState) (job : PrefetchJob) : SchedulerState :=
  let _cancelled := cancelCurrentJob s
  { current_job := some
      { cancel_flag := false,
        progress :=
          { total_files := job.file_paths.length, completed_files := 0, failed_files := 0,
            viewport_completed := 0, viewport_total := viewportTotalInit job,
            is_cancelled := false, is_finished := false } } }

/-- `get_progress` (prefetch.rs:141-149): a clone of the current handle's
progress record, `None` when the slot is empty. -/
def getProgress (s : SchedulerState) : Option PrefetchProgress :=
  s.current_job.map (fun h => h.progress)

/-! ## Claim C5 -/

/-- C5 counterexample: `cancel_current_job` *takes* the handle out of the
slot (prefetch.rs:124), so after `start_prefetch` followed by
`cancel_current_job`, `get_progress()` returns `None` — not a snapshot with
`is_cancelled = true` as the claim asserts.  (The crate's own
`test_cancel_functionality` only checks the snapshot inside an
`if let Some(...)`, which is vacuous here.) -/
theorem scheduler_cancel_then_progress_none :
    getProgress (cancelCurrentJob
      (startPrefetch ⟨none⟩ ⟨["p1", "p2"], .Micro, 0, 1⟩)).1 = none := rfl

/-- C5 (amended): after `start_prefetch` of any job, `cancel_current_job`
empties the slot, so a subsequent `get_progress()` returns `None`; the
discarded handle's progress record is marked `is_cancelled = true` (and its
cancellation flag set) before being dropped; and `cancel_current_job` on an
idle scheduler is a no-op.  Whether `completed_files` stays strictly below
the total is a thread-timing property outside this sequential model. -/
theorem scheduler_cancel_semantics (s : SchedulerState) (job : PrefetchJob) :
    getProgress (cancelCurrentJob (startPrefetch s job)).1 = none ∧
    ((cancelCurrentJob (startPrefetch s job)).2.map
      (fun h => h.progress.is_cancelled)) = some true ∧
    ((cancelCurrentJob (startPrefetch s job)).2.map
      (fun h => h.cancel_flag)) = some true ∧
    cancelCurrentJob ⟨none⟩ = (⟨none⟩, none) :=
  ⟨rfl, rfl, rfl, rfl⟩

/-! ## `generate.rs`: colour swatch extraction (claim C6) -/

/-- Abstract decoded RGB image (the `image` crate's `RgbImage`): dimensions
plus a pixel function returning (r, g, b).  Channel values are `u8` in the
program; the model keeps `Nat` and mirrors the `as u8` truncation (`% 256`)
where the program casts. -/
structure RgbImage where
  width : Nat
  height : Nat
  pixel : Nat → Nat → Nat × Nat × Nat

/-- Oracle for the external effects of `generate.rs`: the `exiftool`
process (path, tag ↦ stdout bytes) and JPEG decoding by the `image` crate. -/
structure ExtractorEnv where
  extract : String → String → Except String (List Nat)
  decode : List Nat → Except String RgbImage

/-- `ColorSwatch` (generate.rs:73-78); fields are `u8` in the program. -/
structure ColorSwatch where
  r : Nat
  g : Nat
  b : Nat
deriving DecidableEq, Repr

/-- `extract_embedded_jpeg` (generate.rs:117-136): run exiftool for the
tier's tag; a non-zero exit is an error, and empty stdout is the
"no embedded JPEG found" error. -/
def extractEmbeddedJpeg (env : ExtractorEnv) (path : String) (tier : ThumbnailTier) :
    Except String (List Nat) :=
  match env.extract path tier.exiftool_tag with
  | .error e => .error e
  | .ok out => if out = [] then .error ("No embedded JPEG found in " ++ path) else .ok out

/-- The centre-window sampling loop of `extract_color_swatch`
(generate.rs:183-211): returns (total_r, total_g, total_b, pixel_count). -/
def swatchTotals (img : RgbImage) : Nat × Nat × Nat × Nat :=
  let width := img.width
  let height := img.height
  let center_x := width / 2
  let center_y := height / 2
  let sample_width := max (width / 4) 1
  let sample_height := max (height / 4) 1
  let start_x := center_x - sample_width / 2
  let start_y := center_y - sample_height / 2
  let end_x := min (start_x + sample_width) width
  let end_y := min (start_y + sample_height) height
  (List.range' start_y (end_y - start_y)).foldl (fun acc y =>
    (List.range' start_x (end_x - start_x)).foldl (fun acc x =>
      (acc.1 + (img.pixel x y).1, acc.2.1 + (img.pixel x y).2.1,
        acc.2.2.1 + (img.pixel x y).2.2, acc.2.2.2 + 1)) acc)
    ((0, 0, 0, 0) : Nat × Nat × Nat × Nat)

/-- The averaging tail of `extract_color_swatch` (generate.rs:213-222):
neutral gray on zero sampled pixels, otherwise channel averages truncated
`as u8`. -/
def swatchOfImage (img : RgbImage) : ColorSwatch :=
  let totals := swatchTotals img
  if totals.2.2.2 = 0 then ⟨128, 128, 128⟩
  else ⟨totals.1 / totals.2.2.2 % 256, totals.2.1 / totals.2.2.2 % 256,
        totals.2.2.1 / totals.2.2.2 % 256⟩

/-- `extract_color_swatch` (generate.rs:173-223): extract with the Micro
tier's tag, decode, sample the centre window.  Extraction and decode
failures are returned as errors (`?` operators at generate.rs:175,181);
only the zero-pixel case falls back to gray inside this function. -/
def extract_color_swatch (env : ExtractorEnv) (path : String) :
    Except String ColorSwatch :=
  match extractEmbeddedJpeg env path .Micro with
  | .error e => .error e
  | .ok jpeg =>
    match env.decode jpeg with
    | .error e => .error e
    | .ok img => .ok (swatchOfImage img)

/-! ### Association-list model of `HashMap` collection -/

/-- `HashMap::insert`: replace the entry stored under `k`, or append it. -/
def mapInsert {κ α : Type} [DecidableEq κ] (m : List (κ × α)) (k : κ) (v : α) :
    List (κ × α) :=
  if (m.find? (fun e => decide (e.1 = k))).isSome then
    m.map (fun e => if e.1 = k then (k, v) else e)
  else m ++ [(k, v)]

/-- Collect a list of key/value pairs into a `HashMap`, later pairs
overwriting earlier ones with the same key. -/
def collectMap {κ α : Type} [DecidableEq κ] (l : List (κ × α)) : List (κ × α) :=
  l.foldl (fun m kv => mapInsert m kv.1 kv.2) []

theorem mem_mapInsert {κ α : Type} [DecidableEq κ] {m : List (κ × α)} {k : κ} {v : α}
    {x : κ × α} (h : x ∈ mapInsert m k v) : x = (k, v) ∨ x ∈ m := by
  unfold mapInsert at h
  split at h
  · obtain ⟨e, he, hx⟩ := List.mem_map.mp h
    by_cases hek : e.1 = k
    · rw [if_pos hek] at hx
      exact .inl hx.symm
    · rw [if_neg hek] at hx
      exact .inr (hx ▸ he)
  · rcases List.mem_append.mp h with h | h
    · exact .inr h
    · exact .inl (List.mem_singleton.mp h)

theorem mem_collectMap_aux {κ α : Type} [DecidableEq κ] :
    ∀ (l m : List (κ × α)) (x : κ × α),
      x ∈ l.foldl (fun m kv => mapInsert m kv.1 kv.2) m → x ∈ m ∨ x ∈ l := by
  intro l
  induction l with
  | nil => exact fun m x h => .inl h
  | cons kv rest ih =>
      intro m x h
      rw [List.foldl_cons] at h
      rcases ih _ x h with h | h
      · rcases mem_mapInsert h with h | h
        · exact .inr (h ▸ List.mem_cons_self _ _)
        · exact .inl h
      · exact .inr (List.mem_cons_of_mem _ h)

theorem mem_collectMap {κ α : Type} [DecidableEq κ] {l : List (κ × α)} {x : κ × α}
    (h : x ∈ collectMap l) : x ∈ l := by
  rcases mem_collectMap_aux l [] x h with h | h
  · simp at h
  · exact h

/-- `ThumbnailCache::get_color_swatches` (cache.rs:183-207): parallel
fan-out over `extract_color_swatch` (modelled sequentially; the per-item
result does not depend on its siblings), collecting into a map keyed by
path, with a default gray swatch substituted for failed extractions; always
returns `Ok`. -/
def get_color_swatches (env : ExtractorEnv) (file_paths : List String) :
    Except String (List (String × ColorSwatch)) :=
  .ok (collectMap (file_paths.map (fun p =>
    (p, match extract_color_swatch env p with
        | .ok s => s
        | .error _ => ⟨128, 128, 128⟩))))

/-! ## Claim C6 -/

/-- An extractor environment whose exiftool invocation always fails. -/
def failSwatchEnv : ExtractorEnv :=
  { extract := fun _ _ => .error "exiftool failed",
    decode := fun _ => .error "decode unused" }

/-- C6 counterexample: `extract_color_swatch` itself *propagates* extraction
failures (the `?` at generate.rs:175) instead of returning the gray
fallback, so "never propagates an error" is false of the function the claim
names. -/
theorem extract_color_swatch_propagates_extraction_error :
    extract_color_swatch failSwatchEnv "img.raw" = .error "exiftool failed" ∧
      extract_color_swatch failSwatchEnv "img.raw" ≠ .ok ⟨128, 128, 128⟩ := by
  refine ⟨rfl, fun h => ?_⟩
  rw [show extract_color_swatch failSwatchEnv "img.raw"
      = Except.error "exiftool failed" from rfl] at h
  exact Except.noConfusion h

/-- C6 (amended): `extract_color_swatch` returns the neutral gray swatch
(128, 128, 128) only in the zero-sampled-pixels case; extraction and
decoding failures are propagated as errors by the function itself.  The
gray substitution for those failures happens one level up, in
`get_color_swatches`, which never fails and maps every failed path to the
gray swatch (and every successful path to its computed swatch). -/
theorem swatch_fallback_and_error_propagation :
    (∀ (env : ExtractorEnv) (path e : String),
      env.extract path "PreviewImage" = .error e →
      extract_color_swatch env path = .error e) ∧
    (∀ (env : ExtractorEnv) (path : String) (jpeg : List Nat) (e : String),
      extractEmbeddedJpeg env path .Micro = .ok jpeg →
      env.decode jpeg = .error e →
      extract_color_swatch env path = .error e) ∧
    (∀ (env : ExtractorEnv) (path : String) (jpeg : List Nat) (img : RgbImage),
      extractEmbeddedJpeg env path .Micro = .ok jpeg →
      env.decode jpeg = .ok img →
      (swatchTotals img).2.2.2 = 0 →
      extract_color_swatch env path = .ok ⟨128, 128, 128⟩) ∧
    (∀ (env : ExtractorEnv) (paths : List String),
      ∃ m, get_color_swatches env paths = .ok m ∧
        ∀ kv ∈ m,
          kv.2 = match extract_color_swatch env kv.1 with
                 | .ok s => s
                 | .error _ => ⟨128, 128, 128⟩) := by
  refine ⟨?_, ?_, ?_, ?_⟩
  · intro env path e h
    simp only [extract_color_swatch, extractEmbeddedJpeg, ThumbnailTier.exiftool_tag, h]
  · intro env path jpeg e h1 h2
    simp only [extract_color_swatch, h1, h2]
  · intro env path jpeg img h1 h2 h3
    simp only [extract_color_swatch, h1, h2, swatchOfImage]
    rw [if_pos h3]
  · intro env paths
    refine ⟨_, rfl, ?_⟩
    intro kv hkv
    obtain ⟨p, _, hkv'⟩ := List.mem_map.mp (mem_collectMap hkv)
    rw [← hkv']

/-- C6 witness: the error-propagation branch at the concrete failing
environment, and the batch substitution over one failing path. -/
theorem swatch_fallback_witness :
    failSwatchEnv.extract "img.raw" "PreviewImage" = .error "exiftool failed" ∧
    extract_color_swatch failSwatchEnv "img.raw" = .error "exiftool failed" ∧
    get_color_swatches failSwatchEnv ["img.raw"]
      = .ok [("img.raw", ⟨128, 128, 128⟩)] :=
  ⟨rfl, swatch_fallback_and_error_propagation.1 failSwatchEnv "img.raw" "exiftool failed" rfl,
    rfl⟩

/-! ## `lib.rs` + `cache.rs`: the tiered cache manager

`ThumbnailCache` owns one LRU instance per tier plus one on-disk directory
per tier.  External effects (stat, thumbnail generation = exiftool + decode
+ resize + encode, and the success of `fs::write` on cache files) are
oracles in `CacheEnv`.  The parallel iterations of `generate_batch` are
modelled sequentially; the claims proved below do not depend on the
interleaving.
-/

/-- The stat data `generate_cache_key` hashes (lib.rs:62-67). -/
structure FileMeta where
  size : Nat
  mtime : Nat
deriving DecidableEq, Repr

/-- Cache keys.  `generate_cache_key` (lib.rs:58-77) digests
`(canonical_path, size, mtime_millis)` into 32 hex chars; the model keeps
the triple itself — the digest is injective for all of the spec's uses. -/
abbrev CacheKey := String × Nat × Nat

/-- The memory-budget part of `ThumbnailConfig` (lib.rs:33-41); the size and
quality fields belong to `ThumbnailTier`'s policy and are not used by the
cache manager. -/
structure ThumbnailConfig where
  micro_memory_budget : Nat
  preview_memory_budget : Nat
  loupe_memory_budget : Nat
deriving DecidableEq, Repr

/-- Oracle environment for `cache.rs`: the filesystem's stat data per source
path, the outcome of `generate_thumbnail` per path and tier, and whether the
`fs::write` of a given tier's cache file succeeds. -/
structure CacheEnv where
  fs : String → Option FileMeta
  gen : String → ThumbnailTier → Except String (List Nat)
  writeOk : ThumbnailTier → CacheKey → Bool

/-- `generate_cache_key` (lib.rs:58-77): fails when the file cannot be
stat'ed, otherwise the key derived from path, size and mtime. -/
def generate_cache_key (env : CacheEnv) (path : String) : Except String CacheKey :=
  match env.fs path with
  | none => .error ("stat failed: " ++ path)
  | some m => .ok (path, m.size, m.mtime)

/-- The mutable state of `ThumbnailCache` (cache.rs:18-25): one LRU per tier
plus the per-tier disk cache directory, modelled as a map from tier and key
to file contents. -/
structure ThumbnailCacheState where
  micro_cache : LruCacheInner CacheKey (List Nat)
  preview_cache : LruCacheInner CacheKey (List Nat)
  loupe_cache : LruCacheInner CacheKey (List Nat)
  disk : ThumbnailTier → CacheKey → Option (List Nat)

/-- `ThumbnailCache::with_config` (cache.rs:34-58): three fresh LRUs with the
configured budgets and empty disk directories. -/
def ThumbnailCacheState.new (cfg : ThumbnailConfig) : ThumbnailCacheState :=
  { micro_cache := LruCacheInner.new CacheKey (List Nat) cfg.micro_memory_budget,
    preview_cache := LruCacheInner.new CacheKey (List Nat) cfg.preview_memory_budget,
    loupe_cache := LruCacheInner.new CacheKey (List Nat) cfg.loupe_memory_budget,
    disk := fun _ _ => none }

/-- `ThumbnailCache::get_memory_cache` (cache.rs:68-74). -/
def memCache (st : ThumbnailCacheState) : ThumbnailTier → LruCacheInner CacheKey (List Nat)
  | .Micro => st.micro_cache
  | .Preview => st.preview_cache
  | .Loupe => st.loupe_cache

/-- Write back the (mutated) LRU instance of one tier. -/
def setMem (st : ThumbnailCacheState) (tier : ThumbnailTier)
    (c : LruCacheInner CacheKey (List Nat)) : ThumbnailCacheState :=
  match tier with
  | .Micro => { st with micro_cache := c }
  | .Preview => { st with preview_cache := c }
  | .Loupe => { st with loupe_cache := c }

/-- `ThumbnailCache::get` (cache.rs:82-98): memory first; on a memory miss a
present disk file is read, back-filled into the memory cache and returned. -/
def cacheGet (st : ThumbnailCacheState) (key : CacheKey) (tier : ThumbnailTier) :
    Option (List Nat) × ThumbnailCacheState :=
  let res := (memCache st tier).get key
  match res.1 with
  | some d => (some d, setMem st tier res.2)
  | none =>
    match st.disk tier key with
    | some d => (some d, setMem st tier (res.2.insert key d d.length))
    | none => (none, setMem st tier res.2)

/-- `ThumbnailCache::store` (cache.rs:125-136): insert into the tier's
memory cache, then write the disk file; the Bool is `Ok(())` vs the
`fs::write` failure (in which case the memory insert has already happened). -/
def cacheStore (env : CacheEnv) (st : ThumbnailCacheState) (key : CacheKey)
    (tier : ThumbnailTier) (data : List Nat) : ThumbnailCacheState × Bool :=
  let st1 := setMem st tier ((memCache st tier).insert key data data.length)
  if env.writeOk tier key then
    ({ st1 with
        disk := fun t k => if t = tier ∧ k = key then some data else st1.disk t k }, true)
  else (st1, false)

/-- `ThumbnailCache::get_or_generate` (cache.rs:101-122): existence check,
key derivation, cache lookup, generation, write-through store. -/
def get_or_generate (env : CacheEnv) (st : ThumbnailCacheState) (file_path : String)
    (tier : ThumbnailTier) : Except String (List Nat) × ThumbnailCacheState :=
  match env.fs file_path with
  | none => (.error ("File does not exist: " ++ file_path), st)
  | some m =>
    match cacheGet st (file_path, m.size, m.mtime) tier with
    | (some d, st1) => (.ok d, st1)
    | (none, st1) =>
      match env.gen file_path tier with
      | .error e => (.error e, st1)
      | .ok d =>
        match cacheStore env st1 (file_path, m.size, m.mtime) tier d with
        | (st2, true) => (.ok d, st2)
        | (st2, false) => (.error "Failed to write cache file", st2)

/-- `ThumbnailTier`'s `Display` (generate.rs:49-57), used for the per-tier
directory name. -/
def tierName : ThumbnailTier → String
  | .Micro => "micro"
  | .Preview => "preview"
  | .Loupe => "loupe"

/-- `ThumbnailCache::get_disk_cache_path` (cache.rs:77-79) as a string (the
session cache root prefix is constant and elided). -/
def diskPathString (tier : ThumbnailTier) (key : CacheKey) : String :=
  tierName tier ++ "/" ++ key.1 ++ ".jpg"

/-- One iteration of the `generate_batch` closure (cache.rs:154-169): derive
the key (stat fails for missing files), return the disk path if cached,
otherwise generate and store. -/
def batchItem (env : CacheEnv) (st : ThumbnailCacheState) (file_path : String)
    (tier : ThumbnailTier) : Except String String × ThumbnailCacheState :=
  match generate_cache_key env file_path with
  | .error e => (.error e, st)
  | .ok key =>
    match cacheGet st key tier with
    | (some _, st1) => (.ok (diskPathString tier key), st1)
    | (none, st1) =>
      match env.gen file_path tier with
      | .error e => (.error e, st1)
      | .ok d =>
        match cacheStore env st1 key tier d with
        | (st2, true) => (.ok (diskPathString tier key), st2)
        | (st2, false) => (.error "Failed to write cache file", st2)

/-- One fold step of `generate_batch`: run the item and record its
`(path, result)` pair. -/
def batchStep (env : CacheEnv) (tier : ThumbnailTier)
    (acc : ThumbnailCacheState × List (String × Except String String)) (p : String) :
    ThumbnailCacheState × List (String × Except String String) :=
  ((batchItem env acc.1 p tier).2, acc.2 ++ [(p, (batchItem env acc.1 p tier).1)])

/-- `ThumbnailCache::generate_batch` (cache.rs:139-180): every path is
processed (modelled sequentially; rayon fans the closure out in parallel),
each item independently succeeding or failing, the pairs are collected into
a `HashMap` keyed by path, and the batch as a whole is always `Ok`.  The
progress callback only surfaces counters and is not modelled. -/
def generate_batch (env : CacheEnv) (st : ThumbnailCacheState) (file_paths : List String)
    (tier : ThumbnailTier) :
    ThumbnailCacheState × Except String (List (String × Except String String)) :=
  let res := file_paths.foldl (batchStep env tier) (st, [])
  (res.1, .ok (collectMap res.2))

/-- `ThumbnailCache::clear_all` (cache.rs:225-246): clear the three memory
caches, then delete and recreate the disk cache root. -/
def clearAll (st : ThumbnailCacheState) : ThumbnailCacheState :=
  { micro_cache := st.micro_cache.clear,
    preview_cache := st.preview_cache.clear,
    loupe_cache := st.loupe_cache.clear,
    disk := fun _ _ => none }

/-- The manager operations a caller can run against one `ThumbnailCache`. -/
inductive CacheOp where
  | gog (path : String) (tier : ThumbnailTier)
  | rawGet (key : CacheKey) (tier : ThumbnailTier)
  | batch (paths : List String) (tier : ThumbnailTier)
  | clearAll

def applyCacheOp (env : CacheEnv) (st : ThumbnailCacheState) : CacheOp → ThumbnailCacheState
  | .gog p t => (get_or_generate env st p t).2
  | .rawGet k t => (cacheGet st k t).2
  | .batch ps t => (generate_batch env st ps t).1
  | .clearAll => clearAll st

def runCacheOps (env : CacheEnv) (cfg : ThumbnailConfig) (ops : List CacheOp) :
    ThumbnailCacheState :=
  ops.foldl (applyCacheOp env) (ThumbnailCacheState.new cfg)

/-! ### Further LRU lemmas: survival of a freshly inserted entry -/

theorem evictLru_data_sublist [DecidableEq K] (c : LruCacheInner K V) :
    (c.evictLru).data.Sublist c.data := by
  cases hfo : findOldest c.data with
  | none => rw [evictLru_eq_none hfo]
  | some old =>
      obtain ⟨rem, hlk⟩ := lookupEntry_isSome_of_mem (findOldest_mem hfo)
      rw [evictLru_eq_some hfo hlk]
      exact List.eraseP_sublist _

theorem evictLru_max_bytes [DecidableEq K] (c : LruCacheInner K V) :
    (c.evictLru).max_bytes = c.max_bytes := by
  cases hfo : findOldest c.data with
  | none => rw [evictLru_eq_none hfo]
  | some old =>
      obtain ⟨rem, hlk⟩ := lookupEntry_isSome_of_mem (findOldest_mem hfo)
      rw [evictLru_eq_some hfo hlk]

theorem totalLe_evictLru [DecidableEq K] {c : LruCacheInner K V} (ht : TotalLe c) :
    TotalLe c.evictLru := by
  cases hfo : findOldest c.data with
  | none => rw [evictLru_eq_none hfo]; exact ht
  | some old =>
      obtain ⟨rem, hlk⟩ := lookupEntry_isSome_of_mem (findOldest_mem hfo)
      rw [evictLru_eq_some hfo hlk]
      obtain ⟨h1, h2, _⟩ := find?_eraseP_sum (p := fun e => decide (e.key = old.key)) hlk
      show c.total_bytes - rem.byte_size ≤ sumSizes (c.data.eraseP _)
      have ht' : c.total_bytes ≤ sumSizes c.data := ht
      omega

theorem evictLoop_data_sublist [DecidableEq K] (fuel : Nat) (c : LruCacheInner K V) :
    (evictLoop fuel c).data.Sublist c.data := by
  induction fuel generalizing c with
  | zero => exact List.Sublist.refl _
  | succ fuel ih =>
      unfold evictLoop
      split
      · exact (ih c.evictLru).trans (evictLru_data_sublist c)
      · exact List.Sublist.refl _

theorem nodupKeys_evictLoop [DecidableEq K] (fuel : Nat) {c : LruCacheInner K V}
    (hn : NodupKeys c.data) : NodupKeys (evictLoop fuel c).data := by
  have hn' : (c.data.map (·.key)).Nodup := hn
  show ((evictLoop fuel c).data.map (·.key)).Nodup
  exact ((evictLoop_data_sublist fuel c).map (·.key)).nodup hn'

theorem mem_eraseP_of_pred_false {α : Type} {p : α → Bool} {l : List α} {a : α}
    (ha : a ∈ l) (hp : p a = false) : a ∈ l.eraseP p := by
  induction l with
  | nil => simp at ha
  | cons x xs ih =>
      cases hpx : p x with
      | true =>
          simp only [List.eraseP_cons, hpx, cond_true]
          rcases List.mem_cons.mp ha with h | h
          · rw [h] at hp
            rw [hp] at hpx
            exact Bool.noConfusion hpx
          · exact h
      | false =>
          simp only [List.eraseP_cons, hpx, cond_false]
          rcases List.mem_cons.mp ha with h | h
          · exact h ▸ List.mem_cons_self _ _
          · exact List.mem_cons_of_mem _ (ih h)

theorem self_mem_insertEntry [DecidableEq K] (data : List (LruEntry K V)) (e : LruEntry K V) :
    e ∈ insertEntry data e := by
  induction data with
  | nil => exact List.mem_singleton.mpr rfl
  | cons x xs ih =>
      by_cases hk : x.key = e.key
      · simp only [insertEntry, if_pos hk]
        exact List.mem_cons_self _ _
      · simp only [insertEntry, if_neg hk]
        exact List.mem_cons_of_mem _ ih

/-- If the freshly inserted entry has the strictly newest stamp and its size
fits the budget, the eviction loop never removes it: victims are always
older entries, and once it is alone the loop stops (`TotalLe` bounds the
recorded total by its size). -/
theorem evictLoop_self_present [DecidableEq K] (new : LruEntry K V) :
    ∀ (fuel : Nat) (st : LruCacheInner K V),
      new ∈ st.data → NodupKeys st.data → TotalLe st →
      (∀ e ∈ st.data, e.key ≠ new.key → e.access_time < new.access_time) →
      new.byte_size ≤ st.max_bytes →
      new ∈ (evictLoop fuel st).data := by
  intro fuel
  induction fuel with
  | zero => exact fun st hmem _ _ _ _ => hmem
  | succ fuel ih =>
      intro st hmem hn ht hstamp hsz
      unfold evictLoop
      split
      · next hcond =>
          -- some other entry must exist: were `new` alone, the recorded total
          -- would be at most its size, within budget, and the loop would stop
          have hother : ∃ x ∈ st.data, x.key ≠ new.key := by
            by_contra hno
            push_neg at hno
            have hall : ∀ x ∈ st.data, x = new := fun x hx =>
              nodupKeys_eq_of_key_eq hn hx hmem (hno x hx)
            have hsum : sumSizes st.data ≤ new.byte_size := by
              cases hd : st.data with
              | nil => simp
              | cons a as =>
                  have hamem : a ∈ st.data := hd.symm ▸ List.mem_cons_self a as
                  have ha : a = new := hall a hamem
                  cases has : as with
                  | nil =>
                      rw [ha, sumSizes_cons, sumSizes_nil]
                      omega
                  | cons b bs =>
                      rw [has] at hd
                      have hbmem : b ∈ st.data :=
                        hd.symm ▸ List.mem_cons_of_mem a (List.mem_cons_self b bs)
                      have hb : b = new := hall b hbmem
                      have hnd : NodupKeys (a :: b :: bs) := hd ▸ hn
                      obtain ⟨hna, _⟩ := nodupKeys_cons hnd
                      exact absurd (by rw [hb, ha]) (hna b (List.mem_cons_self b bs))
            have ht' : st.total_bytes ≤ sumSizes st.data := ht
            omega
          obtain ⟨x, hx, hxk⟩ := hother
          have hne : st.data ≠ [] := fun hnil => by rw [hnil] at hmem; simp at hmem
          obtain ⟨old, hfo⟩ := findOldest_isSome hne
          obtain ⟨rem, hlk⟩ := lookupEntry_isSome_of_mem (findOldest_mem hfo)
          have holdk : old.key ≠ new.key := by
            intro hk
            have heqn : old = new := nodupKeys_eq_of_key_eq hn (findOldest_mem hfo) hmem hk
            have hlt := findOldest_min hfo x hx
            rw [heqn] at hlt
            have hxlt := hstamp x hx hxk
            omega
          rw [evictLru_eq_some hfo hlk]
          have hmem' : new ∈ st.data.eraseP (fun e => decide (e.key = old.key)) :=
            mem_eraseP_of_pred_false hmem (by
              simp only [decide_eq_false_iff_not]
              intro hk
              exact holdk hk.symm)
          have hsub : (st.data.eraseP (fun e => decide (e.key = old.key))).Sublist st.data :=
            List.eraseP_sublist _
          refine ih _ hmem' ?_ ?_ ?_ ?_
          · have hn' : (st.data.map (·.key)).Nodup := hn
            exact (hsub.map (·.key)).nodup hn'
          · show st.total_bytes - rem.byte_size
              ≤ sumSizes (st.data.eraseP (fun e => decide (e.key = old.key)))
            obtain ⟨h1, h2, _⟩ :=
              find?_eraseP_sum (p := fun e => decide (e.key = old.key)) hlk
            have ht' : st.total_bytes ≤ sumSizes st.data := ht
            omega
          · exact fun e he hek => hstamp e (hsub.mem he) hek
          · exact hsz
      · exact hmem

/-- After `insert k v s` on a well-formed cache, any entry found under `k`
carries the inserted value and size. -/
theorem insert_lookup_value [DecidableEq K] {c : LruCacheInner K V}
    (hn : NodupKeys c.data) {k : K} {v : V} {s : Nat} {e : LruEntry K V}
    (h : lookupEntry (c.insert k v s).data k = some e) : e.value = v ∧ e.byte_size = s := by
  rw [insert_eq] at h
  obtain ⟨hmem, hkey⟩ := lookupEntry_mem h
  have hmem' : e ∈ insertEntry c.data ⟨k, v, s, c.access_counter + 1⟩ :=
    (evictLoop_data_sublist _ _).mem hmem
  rcases mem_insertEntry_strong hn hmem' with h' | ⟨_, hne⟩
  · rw [h']
    exact ⟨rfl, rfl⟩
  · exact absurd hkey hne

/-- On a hit, `get` restamps exactly the entry stored under the key. -/
theorem lookupEntry_touchEntry_self [DecidableEq K] {data : List (LruEntry K V)} {k : K}
    {t : Nat} {e0 : LruEntry K V} (h : lookupEntry data k = some e0) :
    lookupEntry (touchEntry data k t) k = some { e0 with access_time := t } := by
  induction data with
  | nil => simp [lookupEntry] at h
  | cons x xs ih =>
      by_cases hk : x.key = k
      · rw [lookupEntry, List.find?_cons_of_pos _ (by simpa using hk)] at h
        cases h
        simp only [touchEntry, if_pos hk]
        rw [lookupEntry, List.find?_cons_of_pos _ (by simpa using hk)]
      · rw [lookupEntry, List.find?_cons_of_neg _ (by simpa using hk)] at h
        simp only [touchEntry, if_neg hk]
        rw [lookupEntry, List.find?_cons_of_neg _ (by simpa using hk)]
        exact ih h

/-- After `insert k v s` on a well-formed cache, the entry is present under
`k` whenever its size fits the budget. -/
theorem insert_self_present [DecidableEq K] {c : LruCacheInner K V} (h : LruWf c)
    (k : K) (v : V) {s : Nat} (hs : s ≤ c.max_bytes) :
    ∃ e, lookupEntry (c.insert k v s).data k = some e ∧ e.value = v ∧ e.byte_size = s := by
  obtain ⟨hn, hst, ht⟩ := h
  rw [insert_eq]
  have hmem0 : (⟨k, v, s, c.access_counter + 1⟩ : LruEntry K V)
      ∈ (preInsertState c k v s).data :=
    self_mem_insertEntry c.data _
  have hin := evictLoop_self_present (⟨k, v, s, c.access_counter + 1⟩ : LruEntry K V)
    (preInsertState c k v s).data.length (preInsertState c k v s) hmem0
    (nodupKeys_insertEntry hn _) (totalLe_preInsert ht k v s)
    (by
      intro e he hek
      rcases mem_insertEntry_strong hn he with h' | ⟨hmem, _⟩
      · exact absurd (h' ▸ rfl) hek
      · exact Nat.lt_succ_of_le (hst e hmem))
    hs
  obtain ⟨rem, hlk⟩ := lookupEntry_isSome_of_mem hin
  have hnd : NodupKeys (evictLoop (preInsertState c k v s).data.length
      (preInsertState c k v s)).data :=
    nodupKeys_evictLoop _ (nodupKeys_insertEntry hn _)
  obtain ⟨hmemr, hkeyr⟩ := lookupEntry_mem hlk
  have : rem = ⟨k, v, s, c.access_counter + 1⟩ :=
    nodupKeys_eq_of_key_eq hnd hmemr hin hkeyr
  exact ⟨rem, hlk, by rw [this], by rw [this]⟩

/-! ### Cache-level invariants -/

/-- Every tier's in-memory LRU is well-formed. -/
def MemWf (st : ThumbnailCacheState) : Prop := ∀ tier, LruWf (memCache st tier)

/-- Write-through consistency: every retained memory entry mirrors the
corresponding disk file. -/
def MemMirrorsDisk (st : ThumbnailCacheState) : Prop :=
  ∀ tier, ∀ e ∈ (memCache st tier).data, st.disk tier e.key = some e.value

/-- All cache-file writes succeed in this environment. -/
def AllWritesOk (env : CacheEnv) : Prop := ∀ t k, env.writeOk t k = true

theorem memCache_setMem_same (st : ThumbnailCacheState) (tier : ThumbnailTier)
    (c : LruCacheInner CacheKey (List Nat)) : memCache (setMem st tier c) tier = c := by
  cases tier <;> rfl

theorem memCache_setMem_other (st : ThumbnailCacheState) {tier t : ThumbnailTier}
    (c : LruCacheInner CacheKey (List Nat)) (h : t ≠ tier) :
    memCache (setMem st tier c) t = memCache st t := by
  cases tier <;> cases t <;> first | rfl | exact absurd rfl h

theorem disk_setMem (st : ThumbnailCacheState) (tier : ThumbnailTier)
    (c : LruCacheInner CacheKey (List Nat)) : (setMem st tier c).disk = st.disk := by
  cases tier <;> rfl

theorem memCache_withDisk (st : ThumbnailCacheState)
    (f : ThumbnailTier → CacheKey → Option (List Nat)) (t : ThumbnailTier) :
    memCache { st with disk := f } t = memCache st t := by
  cases t <;> rfl

theorem memWf_setMem {st : ThumbnailCacheState} {tier : ThumbnailTier}
    {c : LruCacheInner CacheKey (List Nat)} (hwf : MemWf st) (hc : LruWf c) :
    MemWf (setMem st tier c) := by
  intro t
  by_cases ht : t = tier
  · rw [ht, memCache_setMem_same]
    exact hc
  · rw [memCache_setMem_other st c ht]
    exact hwf t

/-- Entries surviving a `get` satisfy any key/value predicate the original
entries satisfied. -/
theorem entries_pred_get [DecidableEq K] {c : LruCacheInner K V} {k : K}
    {P : K → V → Prop} (h : ∀ e ∈ c.data, P e.key e.value) :
    ∀ e ∈ (c.get k).2.data, P e.key e.value := by
  cases hlk : lookupEntry c.data k with
  | none =>
      rw [get_eq_miss hlk]
      exact h
  | some e0 =>
      rw [get_eq_hit hlk]
      intro e he
      obtain ⟨y, hy, hkey, hval, _⟩ := mem_touchEntry he
      rw [hkey, hval]
      exact h y hy

/-- Entries surviving an `insert` are the new entry or old entries. -/
theorem entries_pred_insert [DecidableEq K] {c : LruCacheInner K V} {k : K} {v : V} {s : Nat}
    {P : K → V → Prop} (h : ∀ e ∈ c.data, P e.key e.value) (hnew : P k v) :
    ∀ e ∈ (c.insert k v s).data, P e.key e.value := by
  intro e he
  rw [insert_eq] at he
  have he' := (evictLoop_data_sublist _ _).mem he
  rcases mem_insertEntry he' with h' | h'
  · rw [h']
    exact hnew
  · exact h e h'

/-- Under distinct keys, entries surviving an `insert` are the new entry or
old entries stored under *other* keys. -/
theorem entries_pred_insert_strong [DecidableEq K] {c : LruCacheInner K V}
    (hn : NodupKeys c.data) {k : K} {v : V} {s : Nat} {P : K → V → Prop}
    (h : ∀ e ∈ c.data, e.key ≠ k → P e.key e.value) (hnew : P k v) :
    ∀ e ∈ (c.insert k v s).data, P e.key e.value := by
  intro e he
  rw [insert_eq] at he
  have he' := (evictLoop_data_sublist _ _).mem he
  rcases mem_insertEntry_strong hn he' with h' | ⟨hmem, hne⟩
  · rw [h']
    exact hnew
  · exact h e hmem hne

/-! ### `cacheGet` and `cacheStore`: equations and invariant preservation -/

theorem cacheGet_eq_memhit {st : ThumbnailCacheState} {key : CacheKey}
    {tier : ThumbnailTier} {d : List Nat} (h : ((memCache st tier).get key).1 = some d) :
    cacheGet st key tier = (some d, setMem st tier ((memCache st tier).get key).2) := by
  simp only [cacheGet, h]

theorem cacheGet_eq_diskhit {st : ThumbnailCacheState} {key : CacheKey}
    {tier : ThumbnailTier} {d : List Nat} (h1 : ((memCache st tier).get key).1 = none)
    (h2 : st.disk tier key = some d) :
    cacheGet st key tier
      = (some d, setMem st tier (((memCache st tier).get key).2.insert key d d.length)) := by
  simp only [cacheGet, h1, h2]

theorem cacheGet_eq_miss {st : ThumbnailCacheState} {key : CacheKey}
    {tier : ThumbnailTier} (h1 : ((memCache st tier).get key).1 = none)
    (h2 : st.disk tier key = none) :
    cacheGet st key tier = (none, setMem st tier ((memCache st tier).get key).2) := by
  simp only [cacheGet, h1, h2]

/-- On a memory miss the inner `get` leaves the LRU untouched. -/
theorem lruGet_miss_state [DecidableEq K] {c : LruCacheInner K V} {k : K}
    (h : (c.get k).1 = none) : (c.get k).2 = c := by
  cases hlk : lookupEntry c.data k with
  | none => rw [get_eq_miss hlk]
  | some e =>
      rw [get_eq_hit hlk] at h
      exact Option.noConfusion h

theorem cacheGet_inv {st : ThumbnailCacheState} {key : CacheKey}
    {tier : ThumbnailTier} (hwf : MemWf st) (hmir : MemMirrorsDisk st) :
    MemWf (cacheGet st key tier).2 ∧ MemMirrorsDisk (cacheGet st key tier).2 ∧
      (cacheGet st key tier).2.disk = st.disk ∧
      (∀ d, (cacheGet st key tier).1 = some d → st.disk tier key = some d) ∧
      (∀ t, (memCache (cacheGet st key tier).2 t).max_bytes = (memCache st t).max_bytes) := by
  cases hm : ((memCache st tier).get key).1 with
  | some d =>
      rw [cacheGet_eq_memhit hm]
      obtain ⟨hg1, hg2, _, _⟩ := get_wf (hwf tier) key
      refine ⟨memWf_setMem hwf hg1, ?_, disk_setMem st tier _, ?_, ?_⟩
      · intro t e he
        rw [disk_setMem]
        by_cases ht : t = tier
        · subst ht
          rw [memCache_setMem_same] at he
          exact entries_pred_get (P := fun k' v' => st.disk t k' = some v') (hmir t) e he
        · rw [memCache_setMem_other st _ ht] at he
          exact hmir t e he
      · intro d' hd'
        cases hd'
        -- the hit value comes from the entry stored under `key`
        cases hlk : lookupEntry (memCache st tier).data key with
        | none =>
            rw [get_eq_miss hlk] at hm
            exact Option.noConfusion hm
        | some e0 =>
            rw [get_eq_hit hlk] at hm
            cases hm
            obtain ⟨hmem, hkey⟩ := lookupEntry_mem hlk
            have := hmir tier e0 hmem
            rw [hkey] at this
            exact this
      · intro t
        by_cases ht : t = tier
        · subst ht
          rw [memCache_setMem_same]
          exact hg2
        · rw [memCache_setMem_other st _ ht]
  | none =>
      have hst : ((memCache st tier).get key).2 = memCache st tier := lruGet_miss_state hm
      cases hd : st.disk tier key with
      | some d =>
          rw [cacheGet_eq_diskhit hm hd]
          rw [hst]
          obtain ⟨hi1, hi2, _⟩ := insert_wf (hwf tier) key d d.length
          refine ⟨memWf_setMem hwf hi1, ?_, disk_setMem st tier _, ?_, ?_⟩
          · intro t e he
            rw [disk_setMem]
            by_cases ht : t = tier
            · subst ht
              rw [memCache_setMem_same] at he
              exact entries_pred_insert (P := fun k' v' => st.disk t k' = some v')
                (hmir t) hd e he
            · rw [memCache_setMem_other st _ ht] at he
              exact hmir t e he
          · intro d' hd'
            exact hd'
          · intro t
            by_cases ht : t = tier
            · subst ht
              rw [memCache_setMem_same]
              exact hi2
            · rw [memCache_setMem_other st _ ht]
      | none =>
          rw [cacheGet_eq_miss hm hd]
          rw [hst]
          refine ⟨memWf_setMem hwf (hwf tier), ?_, disk_setMem st tier _, ?_, ?_⟩
          · intro t e he
            rw [disk_setMem]
            by_cases ht : t = tier
            · subst ht
              rw [memCache_setMem_same] at he
              exact hmir t e he
            · rw [memCache_setMem_other st _ ht] at he
              exact hmir t e he
          · intro d' hd'
            exact Option.noConfusion hd'
          · intro t
            by_cases ht : t = tier
            · subst ht
              rw [memCache_setMem_same]
            · rw [memCache_setMem_other st _ ht]

theorem cacheStore_eq_ok {env : CacheEnv} {st : ThumbnailCacheState} {key : CacheKey}
    {tier : ThumbnailTier} {d : List Nat} (hw : env.writeOk tier key = true) :
    cacheStore env st key tier d
      = ({ setMem st tier ((memCache st tier).insert key d d.length) with
            disk := fun t k => if t = tier ∧ k = key then some d
              else (setMem st tier ((memCache st tier).insert key d d.length)).disk t k },
          true) := by
  simp only [cacheStore, hw, if_true]

theorem cacheStore_eq_fail {env : CacheEnv} {st : ThumbnailCacheState} {key : CacheKey}
    {tier : ThumbnailTier} {d : List Nat} (hw : env.writeOk tier key = false) :
    cacheStore env st key tier d
      = (setMem st tier ((memCache st tier).insert key d d.length), false) := by
  simp only [cacheStore, hw]
  rw [if_neg Bool.false_ne_true]

theorem cacheStore_inv_ok {env : CacheEnv} {st : ThumbnailCacheState} {key : CacheKey}
    {tier : ThumbnailTier} {d : List Nat}
    (hw : env.writeOk tier key = true) (hwf : MemWf st) (hmir : MemMirrorsDisk st) :
    (cacheStore env st key tier d).2 = true ∧
    MemWf (cacheStore env st key tier d).1 ∧
    MemMirrorsDisk (cacheStore env st key tier d).1 ∧
    (cacheStore env st key tier d).1.disk tier key = some d ∧
    (∀ t k, ¬(t = tier ∧ k = key) → (cacheStore env st key tier d).1.disk t k = st.disk t k) ∧
    (∀ t, (memCache (cacheStore env st key tier d).1 t).max_bytes
      = (memCache st t).max_bytes) := by
  rw [cacheStore_eq_ok hw]
  obtain ⟨hi1, hi2, _⟩ := insert_wf (hwf tier) key d d.length
  refine ⟨rfl, ?_, ?_, ?_, ?_, ?_⟩
  · intro t
    rw [show memCache _ t = memCache (setMem st tier
        ((memCache st tier).insert key d d.length)) t from memCache_withDisk _ _ t]
    exact memWf_setMem hwf hi1 t
  · intro t e he
    rw [show memCache _ t = memCache (setMem st tier
        ((memCache st tier).insert key d d.length)) t from memCache_withDisk _ _ t] at he
    show (if t = tier ∧ e.key = key then some d
      else (setMem st tier ((memCache st tier).insert key d d.length)).disk t e.key)
      = some e.value
    by_cases ht : t = tier
    · subst ht
      rw [memCache_setMem_same] at he
      refine entries_pred_insert_strong (hwf t).1
        (P := fun k' v' => (if t = t ∧ k' = key then some d
          else (setMem st t ((memCache st t).insert key d d.length)).disk t k') = some v')
        ?_ ?_ e he
      · intro e' he' hne
        show (if t = t ∧ e'.key = key then some d
          else (setMem st t ((memCache st t).insert key d d.length)).disk t e'.key)
          = some e'.value
        rw [if_neg (fun hcon => hne hcon.2), disk_setMem]
        exact hmir t e' he'
      · show (if t = t ∧ key = key then some d
          else (setMem st t ((memCache st t).insert key d d.length)).disk t key) = some d
        rw [if_pos ⟨rfl, rfl⟩]
    · rw [memCache_setMem_other st _ ht] at he
      rw [if_neg (fun hcon => ht hcon.1), disk_setMem]
      exact hmir t e he
  · show (if tier = tier ∧ key = key then some d else _) = some d
    rw [if_pos ⟨rfl, rfl⟩]
  · intro t k hcon
    show (if t = tier ∧ k = key then some d else _) = st.disk t k
    rw [if_neg hcon, disk_setMem]
  · intro t
    rw [show memCache _ t = memCache (setMem st tier
        ((memCache st tier).insert key d d.length)) t from memCache_withDisk _ _ t]
    by_cases ht : t = tier
    · subst ht
      rw [memCache_setMem_same]
      exact hi2
    · rw [memCache_setMem_other st _ ht]

/-! ### `get_or_generate`: equations and the write-through property -/

theorem gog_eq_nofs {env : CacheEnv} {st : ThumbnailCacheState} {path : String}
    {tier : ThumbnailTier} (h : env.fs path = none) :
    get_or_generate env st path tier = (.error ("File does not exist: " ++ path), st) := by
  simp only [get_or_generate, h]

theorem gog_eq_hit {env : CacheEnv} {st st1 : ThumbnailCacheState} {path : String}
    {tier : ThumbnailTier} {m : FileMeta} {d : List Nat} (hfs : env.fs path = some m)
    (hcg : cacheGet st (path, m.size, m.mtime) tier = (some d, st1)) :
    get_or_generate env st path tier = (.ok d, st1) := by
  simp only [get_or_generate, hfs, hcg]

theorem gog_eq_generr {env : CacheEnv} {st st1 : ThumbnailCacheState} {path : String}
    {tier : ThumbnailTier} {m : FileMeta} {e : String} (hfs : env.fs path = some m)
    (hcg : cacheGet st (path, m.size, m.mtime) tier = (none, st1))
    (hg : env.gen path tier = .error e) :
    get_or_generate env st path tier = (.error e, st1) := by
  simp only [get_or_generate, hfs, hcg, hg]

theorem gog_eq_store_ok {env : CacheEnv} {st st1 st2 : ThumbnailCacheState} {path : String}
    {tier : ThumbnailTier} {m : FileMeta} {d : List Nat} (hfs : env.fs path = some m)
    (hcg : cacheGet st (path, m.size, m.mtime) tier = (none, st1))
    (hg : env.gen path tier = .ok d)
    (hst : cacheStore env st1 (path, m.size, m.mtime) tier d = (st2, true)) :
    get_or_generate env st path tier = (.ok d, st2) := by
  simp only [get_or_generate, hfs, hcg, hg, hst]

theorem gog_eq_store_fail {env : CacheEnv} {st st1 st2 : ThumbnailCacheState} {path : String}
    {tier : ThumbnailTier} {m : FileMeta} {d : List Nat} (hfs : env.fs path = some m)
    (hcg : cacheGet st (path, m.size, m.mtime) tier = (none, st1))
    (hg : env.gen path tier = .ok d)
    (hst : cacheStore env st1 (path, m.size, m.mtime) tier d = (st2, false)) :
    get_or_generate env st path tier = (.error "Failed to write cache file", st2) := by
  simp only [get_or_generate, hfs, hcg, hg, hst]

/-- The workhorse for C4: one `get_or_generate` call on a consistent state
(with all disk writes succeeding) preserves the invariants, and on success
leaves the disk file equal to the returned bytes, every memory entry under
the key equal to them too, and the memory entry present whenever the bytes
fit the tier's budget. -/
theorem gog_inv {env : CacheEnv} {st : ThumbnailCacheState} {path : String}
    {tier : ThumbnailTier} (hwall : AllWritesOk env) (hwf : MemWf st)
    (hmir : MemMirrorsDisk st) :
    MemWf (get_or_generate env st path tier).2 ∧
    MemMirrorsDisk (get_or_generate env st path tier).2 ∧
    (∀ t, (memCache (get_or_generate env st path tier).2 t).max_bytes
      = (memCache st t).max_bytes) ∧
    (∀ d, (get_or_generate env st path tier).1 = .ok d →
      ∃ m, env.fs path = some m ∧
        (get_or_generate env st path tier).2.disk tier (path, m.size, m.mtime) = some d ∧
        (∀ e, lookupEntry (memCache (get_or_generate env st path tier).2 tier).data
            (path, m.size, m.mtime) = some e → e.value = d) ∧
        (d.length ≤ (memCache st tier).max_bytes →
          ∃ e, lookupEntry (memCache (get_or_generate env st path tier).2 tier).data
              (path, m.size, m.mtime) = some e ∧ e.value = d)) := by
  cases hfs : env.fs path with
  | none =>
      rw [gog_eq_nofs hfs]
      exact ⟨hwf, hmir, fun t => rfl, fun d hd => Except.noConfusion hd⟩
  | some meta =>
      cases hm : ((memCache st tier).get (path, meta.size, meta.mtime)).1 with
      | some d0 =>
          -- memory hit: the returned bytes are the value of the entry under the key
          have hcg := cacheGet_eq_memhit hm
          obtain ⟨e0, hlk, he0⟩ : ∃ e0,
              lookupEntry (memCache st tier).data (path, meta.size, meta.mtime) = some e0 ∧
                e0.value = d0 := by
            cases hlk : lookupEntry (memCache st tier).data (path, meta.size, meta.mtime) with
            | none =>
                simp only [get_eq_miss hlk] at hm
                exact Option.noConfusion hm
            | some e0 =>
                simp only [get_eq_hit hlk] at hm
                injection hm with hm
                exact ⟨e0, rfl, hm⟩
          obtain ⟨hg1, hg2, hg3, hg4, hg5⟩ :=
            @cacheGet_inv st (path, meta.size, meta.mtime) tier hwf hmir
          simp only [hcg] at hg1 hg2 hg3 hg4 hg5
          have hE := gog_eq_hit hfs hcg
          refine ⟨?_, ?_, ?_, ?_⟩
          · simp only [hE]
            exact hg1
          · simp only [hE]
            exact hg2
          · simp only [hE]
            exact hg5
          · intro d hd
            simp only [hE] at hd
            injection hd with hdeq
            subst hdeq
            refine ⟨meta, rfl, ?_, ?_, ?_⟩
            · simp only [hE]
              rw [disk_setMem]
              exact hg4 d0 rfl
            · intro e he
              simp only [hE] at he
              rw [memCache_setMem_same] at he
              simp only [get_eq_hit hlk] at he
              rw [lookupEntry_touchEntry_self hlk] at he
              injection he with he
              rw [← he]
              exact he0
            · intro _
              refine ⟨{ e0 with access_time := (memCache st tier).access_counter + 1 }, ?_, he0⟩
              simp only [hE]
              rw [memCache_setMem_same]
              simp only [get_eq_hit hlk]
              exact lookupEntry_touchEntry_self hlk
      | none =>
          have hst1 : ((memCache st tier).get (path, meta.size, meta.mtime)).2
              = memCache st tier := lruGet_miss_state hm
          cases hd : st.disk tier (path, meta.size, meta.mtime) with
          | some d0 =>
              -- disk hit with memory back-fill
              have hcg := cacheGet_eq_diskhit hm hd
              rw [hst1] at hcg
              obtain ⟨hg1, hg2, hg3, hg4, hg5⟩ :=
                @cacheGet_inv st (path, meta.size, meta.mtime) tier hwf hmir
              simp only [hcg] at hg1 hg2 hg3 hg4 hg5
              have hE := gog_eq_hit hfs hcg
              refine ⟨?_, ?_, ?_, ?_⟩
              · simp only [hE]
                exact hg1
              · simp only [hE]
                exact hg2
              · simp only [hE]
                exact hg5
              · intro d hdok
                simp only [hE] at hdok
                injection hdok with hdeq
                subst hdeq
                refine ⟨meta, rfl, ?_, ?_, ?_⟩
                · simp only [hE]
                  rw [disk_setMem]
                  exact hd
                · intro e he
                  simp only [hE] at he
                  rw [memCache_setMem_same] at he
                  exact (insert_lookup_value (hwf tier).1 he).1
                · intro hsz
                  obtain ⟨e, h1, h2, _⟩ :=
                    insert_self_present (hwf tier) (path, meta.size, meta.mtime) d0 hsz
                  refine ⟨e, ?_, h2⟩
                  simp only [hE]
                  rw [memCache_setMem_same]
                  exact h1
          | none =>
              have hcg := cacheGet_eq_miss hm hd
              rw [hst1] at hcg
              cases hg : env.gen path tier with
              | error e =>
                  obtain ⟨hg1, hg2, hg3, hg4, hg5⟩ :=
                    @cacheGet_inv st (path, meta.size, meta.mtime) tier hwf hmir
                  simp only [hcg] at hg1 hg2 hg3 hg4 hg5
                  have hE := gog_eq_generr hfs hcg hg
                  refine ⟨?_, ?_, ?_, ?_⟩
                  · simp only [hE]
                    exact hg1
                  · simp only [hE]
                    exact hg2
                  · simp only [hE]
                    exact hg5
                  · intro d hdok
                    simp only [hE] at hdok
                    exact Except.noConfusion hdok
              | ok d0 =>
                  have hw := hwall tier (path, meta.size, meta.mtime)
                  have hSt := @cacheStore_eq_ok env (setMem st tier (memCache st tier))
                    (path, meta.size, meta.mtime) tier d0 hw
                  have hE := gog_eq_store_ok hfs hcg hg hSt
                  have hwf1 : MemWf (setMem st tier (memCache st tier)) :=
                    memWf_setMem hwf (hwf tier)
                  have hmir1 : MemMirrorsDisk (setMem st tier (memCache st tier)) := by
                    intro t e he
                    rw [disk_setMem]
                    by_cases ht : t = tier
                    · subst ht
                      rw [memCache_setMem_same] at he
                      exact hmir t e he
                    · rw [memCache_setMem_other st _ ht] at he
                      exact hmir t e he
                  obtain ⟨_, hs2, hs3, hs4, hs5, hs6⟩ :=
                    @cacheStore_inv_ok env (setMem st tier (memCache st tier))
                      (path, meta.size, meta.mtime) tier d0 hw hwf1 hmir1
                  simp only [hSt] at hs2 hs3 hs4 hs5 hs6
                  refine ⟨?_, ?_, ?_, ?_⟩
                  · simp only [hE]
                    exact hs2
                  · simp only [hE]
                    exact hs3
                  · intro t
                    simp only [hE]
                    rw [hs6 t]
                    by_cases ht : t = tier
                    · subst ht
                      rw [memCache_setMem_same]
                    · rw [memCache_setMem_other st _ ht]
                  · intro d hdok
                    simp only [hE] at hdok
                    injection hdok with hdeq
                    subst hdeq
                    refine ⟨meta, rfl, ?_, ?_, ?_⟩
                    · simp only [hE]
                      exact hs4
                    · intro e he
                      simp only [hE] at he
                      rw [memCache_withDisk, memCache_setMem_same,
                        memCache_setMem_same] at he
                      exact (insert_lookup_value (hwf tier).1 he).1
                    · intro hsz
                      obtain ⟨e, h1, h2, _⟩ :=
                        insert_self_present (hwf tier) (path, meta.size, meta.mtime) d0 hsz
                      refine ⟨e, ?_, h2⟩
                      simp only [hE]
                      rw [memCache_withDisk, memCache_setMem_same, memCache_setMem_same]
                      exact h1

/-! ### `generate_batch`: per-item equations and fold facts -/

theorem batchItem_eq_nofs {env : CacheEnv} {st : ThumbnailCacheState} {path : String}
    {tier : ThumbnailTier} (h : env.fs path = none) :
    batchItem env st path tier = (.error ("stat failed: " ++ path), st) := by
  simp only [batchItem, generate_cache_key, h]

theorem batchItem_eq_hit {env : CacheEnv} {st st1 : ThumbnailCacheState} {path : String}
    {tier : ThumbnailTier} {m : FileMeta} {d : List Nat} (hfs : env.fs path = some m)
    (hcg : cacheGet st (path, m.size, m.mtime) tier = (some d, st1)) :
    batchItem env st path tier
      = (.ok (diskPathString tier (path, m.size, m.mtime)), st1) := by
  simp only [batchItem, generate_cache_key, hfs, hcg]

theorem batchItem_eq_generr {env : CacheEnv} {st st1 : ThumbnailCacheState} {path : String}
    {tier : ThumbnailTier} {m : FileMeta} {e : String} (hfs : env.fs path = some m)
    (hcg : cacheGet st (path, m.size, m.mtime) tier = (none, st1))
    (hg : env.gen path tier = .error e) :
    batchItem env st path tier = (.error e, st1) := by
  simp only [batchItem, generate_cache_key, hfs, hcg, hg]

theorem batchItem_eq_store_ok {env : CacheEnv} {st st1 st2 : ThumbnailCacheState}
    {path : String} {tier : ThumbnailTier} {m : FileMeta} {d : List Nat}
    (hfs : env.fs path = some m)
    (hcg : cacheGet st (path, m.size, m.mtime) tier = (none, st1))
    (hg : env.gen path tier = .ok d)
    (hst : cacheStore env st1 (path, m.size, m.mtime) tier d = (st2, true)) :
    batchItem env st path tier
      = (.ok (diskPathString tier (path, m.size, m.mtime)), st2) := by
  simp only [batchItem, generate_cache_key, hfs, hcg, hg, hst]

theorem batchItem_eq_store_fail {env : CacheEnv} {st st1 st2 : ThumbnailCacheState}
    {path : String} {tier : ThumbnailTier} {m : FileMeta} {d : List Nat}
    (hfs : env.fs path = some m)
    (hcg : cacheGet st (path, m.size, m.mtime) tier = (none, st1))
    (hg : env.gen path tier = .ok d)
    (hst : cacheStore env st1 (path, m.size, m.mtime) tier d = (st2, false)) :
    batchItem env st path tier = (.error "Failed to write cache file", st2) := by
  simp only [batchItem, generate_cache_key, hfs, hcg, hg, hst]

/-- A batch item drives the cache through exactly the states a
`get_or_generate` on the same path would. -/
theorem batchItem_state_eq (env : CacheEnv) (st : ThumbnailCacheState) (path : String)
    (tier : ThumbnailTier) :
    (batchItem env st path tier).2 = (get_or_generate env st path tier).2 := by
  cases hfs : env.fs path with
  | none => rw [batchItem_eq_nofs hfs, gog_eq_nofs hfs]
  | some m =>
      cases hcg : cacheGet st (path, m.size, m.mtime) tier with
      | mk r st1 =>
          cases r with
          | some d => rw [batchItem_eq_hit hfs hcg, gog_eq_hit hfs hcg]
          | none =>
              cases hg : env.gen path tier with
              | error e => rw [batchItem_eq_generr hfs hcg hg, gog_eq_generr hfs hcg hg]
              | ok d =>
                  cases hstp : cacheStore env st1 (path, m.size, m.mtime) tier d with
                  | mk st2 ok =>
                      cases ok with
                      | true =>
                          rw [batchItem_eq_store_ok hfs hcg hg hstp,
                            gog_eq_store_ok hfs hcg hg hstp]
                      | false =>
                          rw [batchItem_eq_store_fail hfs hcg hg hstp,
                            gog_eq_store_fail hfs hcg hg hstp]

/-- When the path exists, generation succeeds and the disk write succeeds,
the item's result is the disk-cache path — regardless of the cache state. -/
theorem batchItem_fst_ok {env : CacheEnv} (st : ThumbnailCacheState) {path : String}
    {tier : ThumbnailTier} {m : FileMeta} {d : List Nat} (hfs : env.fs path = some m)
    (hgen : env.gen path tier = .ok d)
    (hw : env.writeOk tier (path, m.size, m.mtime) = true) :
    (batchItem env st path tier).1 = .ok (diskPathString tier (path, m.size, m.mtime)) := by
  cases hcg : cacheGet st (path, m.size, m.mtime) tier with
  | mk r st1 =>
      cases r with
      | some dd => rw [batchItem_eq_hit hfs hcg]
      | none =>
          have hStEq := @cacheStore_eq_ok env st1 (path, m.size, m.mtime) tier d hw
          rw [batchItem_eq_store_ok hfs hcg hgen hStEq]

/-- The per-item result of `generate_batch` under the hypotheses of C7:
an error exactly for the paths that cannot be stat'ed. -/
def itemRes (env : CacheEnv) (tier : ThumbnailTier) (p : String) : Except String String :=
  match env.fs p with
  | none => .error ("stat failed: " ++ p)
  | some m => .ok (diskPathString tier (p, m.size, m.mtime))

theorem batchFold_snd_of_ok (env : CacheEnv) (tier : ThumbnailTier) :
    ∀ (paths : List String) (st : ThumbnailCacheState)
      (acc : List (String × Except String String)),
      (∀ p ∈ paths, ∀ m, env.fs p = some m →
        (∃ d, env.gen p tier = .ok d) ∧ env.writeOk tier (p, m.size, m.mtime) = true) →
      (paths.foldl (batchStep env tier) (st, acc)).2
        = acc ++ paths.map (fun p => (p, itemRes env tier p)) := by
  intro paths
  induction paths with
  | nil => intro st acc _; simp
  | cons p rest ih =>
      intro st acc hh
      rw [List.foldl_cons]
      have hitem : (batchItem env st p tier).1 = itemRes env tier p := by
        cases hfs : env.fs p with
        | none =>
            rw [batchItem_eq_nofs hfs]
            simp only [itemRes, hfs]
        | some m =>
            obtain ⟨⟨d, hd⟩, hw⟩ := hh p (List.mem_cons_self _ _) m hfs
            rw [batchItem_fst_ok st hfs hd hw]
            simp only [itemRes, hfs]
      show ((rest.foldl (batchStep env tier)
        ((batchItem env st p tier).2, acc ++ [(p, (batchItem env st p tier).1)]))).2 = _
      rw [ih (batchItem env st p tier).2 (acc ++ [(p, (batchItem env st p tier).1)])
        (fun q hq => hh q (List.mem_cons_of_mem _ hq))]
      rw [hitem]
      simp

theorem batchFold_keys (env : CacheEnv) (tier : ThumbnailTier) :
    ∀ (paths : List String) (st : ThumbnailCacheState)
      (acc : List (String × Except String String)),
      ((paths.foldl (batchStep env tier) (st, acc)).2).map Prod.fst
        = acc.map Prod.fst ++ paths := by
  intro paths
  induction paths with
  | nil => intro st acc; simp
  | cons p rest ih =>
      intro st acc
      rw [List.foldl_cons]
      show ((rest.foldl (batchStep env tier)
        ((batchItem env st p tier).2, acc ++ [(p, (batchItem env st p tier).1)]))).2.map
          Prod.fst = _
      rw [ih]
      simp

theorem batchFold_inv {env : CacheEnv} {tier : ThumbnailTier} (hwall : AllWritesOk env) :
    ∀ (paths : List String) (st : ThumbnailCacheState)
      (acc : List (String × Except String String)),
      MemWf st → MemMirrorsDisk st →
      MemWf (paths.foldl (batchStep env tier) (st, acc)).1 ∧
      MemMirrorsDisk (paths.foldl (batchStep env tier) (st, acc)).1 := by
  intro paths
  induction paths with
  | nil => exact fun st acc h1 h2 => ⟨h1, h2⟩
  | cons p rest ih =>
      intro st acc h1 h2
      rw [List.foldl_cons]
      obtain ⟨hg1, hg2, _, _⟩ := @gog_inv env _ p tier hwall h1 h2
      rw [← batchItem_state_eq] at hg1 hg2
      exact ih _ _ hg1 hg2

/-! ### Collection into a `HashMap`: general lemmas -/

/-- `Result::is_err` on the per-item results. -/
def exceptIsError {α β : Type} : Except α β → Bool
  | .error _ => true
  | .ok _ => false

theorem mapInsert_not_mem {κ α : Type} [DecidableEq κ] {m : List (κ × α)} {k : κ} {v : α}
    (h : m.find? (fun e => decide (e.1 = k)) = none) :
    mapInsert m k v = m ++ [(k, v)] := by
  unfold mapInsert
  rw [h]
  rfl

theorem collectMap_append_of_disjoint {κ α : Type} [DecidableEq κ] :
    ∀ (l m : List (κ × α)),
      (∀ x ∈ l, ∀ y ∈ m, x.1 ≠ y.1) → (l.map Prod.fst).Nodup →
      l.foldl (fun m kv => mapInsert m kv.1 kv.2) m = m ++ l := by
  intro l
  induction l with
  | nil => intro m _ _; simp
  | cons kv rest ih =>
      intro m hdis hnd
      rw [List.foldl_cons]
      have hfind : m.find? (fun e => decide (e.1 = kv.1)) = none := by
        rw [List.find?_eq_none]
        intro y hy
        simp only [decide_eq_true_eq]
        exact fun hh => hdis kv (List.mem_cons_self _ _) y hy hh.symm
      rw [mapInsert_not_mem hfind]
      rw [List.map_cons, List.nodup_cons] at hnd
      obtain ⟨hk, hnd'⟩ := hnd
      have hdis' : ∀ x ∈ rest, ∀ y ∈ m ++ [kv], x.1 ≠ y.1 := by
        intro x hx y hy
        rcases List.mem_append.mp hy with hy | hy
        · exact hdis x (List.mem_cons_of_mem _ hx) y hy
        · rw [List.mem_singleton] at hy
          subst hy
          intro he
          exact hk (he ▸ List.mem_map_of_mem Prod.fst hx)
      rw [ih (m ++ [kv]) hdis' hnd']
      simp

theorem collectMap_eq_self {κ α : Type} [DecidableEq κ] {l : List (κ × α)}
    (h : (l.map Prod.fst).Nodup) : collectMap l = l := by
  have hc := collectMap_append_of_disjoint l [] (by intro x _ y hy; simp at hy) h
  simpa [collectMap] using hc

theorem mapInsert_keys {κ α : Type} [DecidableEq κ] (m : List (κ × α)) (k : κ) (v : α) :
    (mapInsert m k v).map Prod.fst
      = if (m.find? (fun e => decide (e.1 = k))).isSome then m.map Prod.fst
        else m.map Prod.fst ++ [k] := by
  unfold mapInsert
  split
  · rw [List.map_map]
    refine List.map_congr_left ?_
    intro e _
    show (if e.1 = k then ((k, v) : κ × α) else e).1 = e.1
    by_cases hek : e.1 = k
    · rw [if_pos hek]
      exact hek.symm
    · rw [if_neg hek]
  · simp

theorem collectMap_foldl_keys_nodup {κ α : Type} [DecidableEq κ] :
    ∀ (l m : List (κ × α)), (m.map Prod.fst).Nodup →
      ((l.foldl (fun m kv => mapInsert m kv.1 kv.2) m).map Prod.fst).Nodup := by
  intro l
  induction l with
  | nil => exact fun m h => h
  | cons kv rest ih =>
      intro m hm
      rw [List.foldl_cons]
      refine ih _ ?_
      rw [mapInsert_keys]
      split
      · exact hm
      · rename_i h
        have hk : kv.1 ∉ m.map Prod.fst := by
          intro hmem
          apply h
          obtain ⟨e, he, hfe⟩ := List.mem_map.mp hmem
          rw [List.find?_isSome]
          exact ⟨e, he, by simp [hfe]⟩
        refine hm.append (List.nodup_singleton _) ?_
        intro a ha hb
        rw [List.mem_singleton] at hb
        subst hb
        exact hk ha

theorem collectMap_foldl_keys_mem {κ α : Type} [DecidableEq κ] :
    ∀ (l m : List (κ × α)) (x : κ),
      (x ∈ (l.foldl (fun m kv => mapInsert m kv.1 kv.2) m).map Prod.fst
        ↔ x ∈ m.map Prod.fst ∨ x ∈ l.map Prod.fst) := by
  intro l
  induction l with
  | nil => simp
  | cons kv rest ih =>
      intro m x
      rw [List.foldl_cons, ih, mapInsert_keys]
      split
      · rename_i h
        have hk : kv.1 ∈ m.map Prod.fst := by
          rw [List.find?_isSome] at h
          obtain ⟨e, he, hp⟩ := h
          rw [decide_eq_true_eq] at hp
          exact hp ▸ List.mem_map_of_mem Prod.fst he
        simp only [List.map_cons, List.mem_cons]
        constructor
        · rintro (h1 | h1)
          · exact .inl h1
          · exact .inr (.inr h1)
        · rintro (h1 | h1 | h1)
          · exact .inl h1
          · exact .inl (h1 ▸ hk)
          · exact .inr h1
      · simp only [List.mem_append, List.mem_singleton, List.map_cons, List.mem_cons]
        tauto

/-- Keys of a collected map are distinct, its key set is the input's key
set, and key collisions strictly shrink the list. -/
theorem collectMap_spec {κ α : Type} [DecidableEq κ] (l : List (κ × α)) :
    ((collectMap l).map Prod.fst).Nodup ∧
    (∀ x, x ∈ (collectMap l).map Prod.fst ↔ x ∈ l.map Prod.fst) ∧
    (¬ (l.map Prod.fst).Nodup → (collectMap l).length < l.length) := by
  have hnod : ((collectMap l).map Prod.fst).Nodup :=
    collectMap_foldl_keys_nodup l [] (by simp)
  have hmem : ∀ x, x ∈ (collectMap l).map Prod.fst ↔ x ∈ l.map Prod.fst := by
    intro x
    show x ∈ (l.foldl (fun m kv => mapInsert m kv.1 kv.2) []).map Prod.fst ↔ _
    rw [collectMap_foldl_keys_mem l [] x]
    simp
  refine ⟨hnod, hmem, ?_⟩
  intro hdupl
  have hsub : (collectMap l).map Prod.fst ⊆ l.map Prod.fst := fun x hx => (hmem x).mp hx
  have hsp : List.Subperm ((collectMap l).map Prod.fst) (l.map Prod.fst) :=
    hnod.subperm hsub
  rcases Nat.lt_or_ge (collectMap l).length l.length with h | h
  · exact h
  · exfalso
    have hge : (l.map Prod.fst).length ≤ ((collectMap l).map Prod.fst).length := by
      rw [List.length_map, List.length_map]
      exact h
    have hperm := hsp.perm_of_length_le hge
    exact hdupl (hperm.nodup_iff.mp hnod)

theorem length_filter_map_eq {α β : Type} (f : α → β) (q : β → Bool) :
    ∀ l : List α, ((l.map f).filter q).length = (l.filter (fun a => q (f a))).length := by
  intro l
  induction l with
  | nil => rfl
  | cons a rest ih =>
      simp only [List.map_cons, List.filter_cons]
      by_cases h : q (f a) = true
      · rw [if_pos h, if_pos h]
        simp only [List.length_cons, ih]
      · rw [if_neg h, if_neg h]
        exact ih

/-! ### Invariants of every reachable manager state -/

theorem applyCacheOp_inv {env : CacheEnv} (hwall : AllWritesOk env)
    {st : ThumbnailCacheState} (hwf : MemWf st) (hmir : MemMirrorsDisk st) (op : CacheOp) :
    MemWf (applyCacheOp env st op) ∧ MemMirrorsDisk (applyCacheOp env st op) := by
  cases op with
  | gog p t =>
      obtain ⟨h1, h2, _, _⟩ := @gog_inv env st p t hwall hwf hmir
      exact ⟨h1, h2⟩
  | rawGet k t =>
      obtain ⟨h1, h2, _, _, _⟩ := @cacheGet_inv st k t hwf hmir
      exact ⟨h1, h2⟩
  | batch ps t => exact batchFold_inv hwall ps st [] hwf hmir
  | clearAll =>
      constructor
      · intro t
        cases t <;> exact (clear_wf _).1
      · intro t e he
        cases t <;> simp [applyCacheOp, clearAll, memCache, LruCacheInner.clear] at he

theorem runCacheOps_inv {env : CacheEnv} (hwall : AllWritesOk env) (cfg : ThumbnailConfig)
    (ops : List CacheOp) :
    MemWf (runCacheOps env cfg ops) ∧ MemMirrorsDisk (runCacheOps env cfg ops) := by
  have hbase : MemWf (ThumbnailCacheState.new cfg)
      ∧ MemMirrorsDisk (ThumbnailCacheState.new cfg) := by
    constructor
    · intro t
      cases t <;> exact lruWf_new _
    · intro t e he
      cases t <;> simp [ThumbnailCacheState.new, memCache, LruCacheInner.new] at he
  suffices h : ∀ (ops : List CacheOp) (st : ThumbnailCacheState),
      MemWf st → MemMirrorsDisk st →
      MemWf (ops.foldl (applyCacheOp env) st)
        ∧ MemMirrorsDisk (ops.foldl (applyCacheOp env) st) from
    h ops _ hbase.1 hbase.2
  intro ops
  induction ops with
  | nil => exact fun st h1 h2 => ⟨h1, h2⟩
  | cons op rest ih =>
      intro st h1 h2
      rw [List.foldl_cons]
      obtain ⟨h1', h2'⟩ := applyCacheOp_inv hwall h1 h2 op
      exact ih _ h1' h2'

/-! ## Claim C4 -/

/-- A one-file environment whose generated Micro thumbnail is 3 bytes and
whose disk writes succeed. -/
def c4Env : CacheEnv :=
  { fs := fun p => if p = "p" then some ⟨3, 7⟩ else none,
    gen := fun p t => if p = "p" ∧ t = .Micro then .ok [1, 2, 3] else .error "gen",
    writeOk := fun _ _ => true }

/-- C4 counterexample: with a Micro memory budget of 2 bytes, a successful
`get_or_generate` of a 3-byte thumbnail leaves the disk file in place but
**no** memory entry under the key — the insert at cache.rs:128 immediately
evicts the over-budget entry (lru.rs:120-122) — so "both the tier's memory
cache entry … and the … disk cache file contain data byte-identical to d"
fails on the memory side. -/
theorem gog_success_memory_entry_missing :
    (get_or_generate c4Env (ThumbnailCacheState.new ⟨2, 10, 10⟩) "p" .Micro).1
        = .ok [1, 2, 3] ∧
    (get_or_generate c4Env (ThumbnailCacheState.new ⟨2, 10, 10⟩) "p" .Micro).2.disk
        .Micro ("p", 3, 7) = some [1, 2, 3] ∧
    lookupEntry (memCache (get_or_generate c4Env (ThumbnailCacheState.new ⟨2, 10, 10⟩)
        "p" .Micro).2 .Micro).data ("p", 3, 7) = none :=
  ⟨rfl, rfl, rfl⟩

/-- C4 (amended): for every environment whose disk writes succeed and every
reachable cache state, whenever `get_or_generate(path, tier)` returns bytes
`d`, the tier's disk file under the derived key holds exactly `d`, any
memory entry under that key holds exactly `d`, and the memory entry is
present whenever `d` fits the tier's memory budget (it is absent only when
`d` exceeds the budget, the insert having evicted it immediately). -/
theorem write_through_consistency (env : CacheEnv) (cfg : ThumbnailConfig)
    (ops : List CacheOp) (path : String) (tier : ThumbnailTier) (d : List Nat)
    (hwall : AllWritesOk env)
    (hok : (get_or_generate env (runCacheOps env cfg ops) path tier).1 = .ok d) :
    ∃ m, env.fs path = some m ∧
      (get_or_generate env (runCacheOps env cfg ops) path tier).2.disk tier
        (path, m.size, m.mtime) = some d ∧
      (∀ e, lookupEntry (memCache (get_or_generate env (runCacheOps env cfg ops)
          path tier).2 tier).data (path, m.size, m.mtime) = some e → e.value = d) ∧
      (d.length ≤ (memCache (runCacheOps env cfg ops) tier).max_bytes →
        ∃ e, lookupEntry (memCache (get_or_generate env (runCacheOps env cfg ops)
            path tier).2 tier).data (path, m.size, m.mtime) = some e ∧ e.value = d) := by
  obtain ⟨h1, h2⟩ := runCacheOps_inv hwall cfg ops
  exact (gog_inv hwall h1 h2).2.2.2 d hok

/-- C4 witness: one successful call on a fresh cache with ample budget. -/
theorem write_through_consistency_witness :
    AllWritesOk c4Env ∧
    (get_or_generate c4Env (runCacheOps c4Env ⟨10, 10, 10⟩ []) "p" .Micro).1
      = .ok [1, 2, 3] ∧
    (∃ m, c4Env.fs "p" = some m ∧
      (get_or_generate c4Env (runCacheOps c4Env ⟨10, 10, 10⟩ []) "p" .Micro).2.disk
        .Micro ("p", m.size, m.mtime) = some [1, 2, 3] ∧
      (∀ e, lookupEntry (memCache (get_or_generate c4Env
          (runCacheOps c4Env ⟨10, 10, 10⟩ []) "p" .Micro).2 .Micro).data
          ("p", m.size, m.mtime) = some e → e.value = [1, 2, 3]) ∧
      (([1, 2, 3] : List Nat).length
            ≤ (memCache (runCacheOps c4Env ⟨10, 10, 10⟩ []) .Micro).max_bytes →
        ∃ e, lookupEntry (memCache (get_or_generate c4Env
            (runCacheOps c4Env ⟨10, 10, 10⟩ []) "p" .Micro).2 .Micro).data
            ("p", m.size, m.mtime) = some e ∧ e.value = [1, 2, 3])) :=
  ⟨fun _ _ => rfl, rfl,
    write_through_consistency c4Env ⟨10, 10, 10⟩ [] "p" .Micro [1, 2, 3]
      (fun _ _ => rfl) rfl⟩

/-! ## Claim C8 -/

/-- Like `c4Env` but every disk write fails. -/
def c8Env : CacheEnv :=
  { fs := fun p => if p = "p" then some ⟨3, 7⟩ else none,
    gen := fun p t => if p = "p" ∧ t = .Micro then .ok [1, 2, 3] else .error "gen",
    writeOk := fun _ _ => false }

/-- C8 counterexample: when the generated bytes exceed the tier's memory
budget, the failed call does **not** leave the entry in the memory cache —
the insert evicts it at once — so "the memory cache already retains the
newly generated entry" is false as universally stated. -/
theorem store_failure_oversized_not_retained :
    (get_or_generate c8Env (ThumbnailCacheState.new ⟨2, 10, 10⟩) "p" .Micro).1
        = .error "Failed to write cache file" ∧
    lookupEntry (memCache (get_or_generate c8Env (ThumbnailCacheState.new ⟨2, 10, 10⟩)
        "p" .Micro).2 .Micro).data ("p", 3, 7) = none :=
  ⟨rfl, rfl⟩

/-- C8 (amended): the store step inserts into the memory cache before
attempting the disk write, and is not atomic: when the path exists, the key
misses both caches, generation succeeds with bytes `d` and the disk write
fails, `get_or_generate` returns the write error while the memory cache
retains the new entry (provided `d` fits the tier's budget — otherwise the
insert evicts it immediately); the disk is left unchanged. -/
theorem store_memory_before_disk (env : CacheEnv) (st : ThumbnailCacheState)
    (path : String) (tier : ThumbnailTier) (m : FileMeta) (d : List Nat)
    (hwf : LruWf (memCache st tier))
    (hfs : env.fs path = some m)
    (hmiss : (cacheGet st (path, m.size, m.mtime) tier).1 = none)
    (hgen : env.gen path tier = .ok d)
    (hwfail : env.writeOk tier (path, m.size, m.mtime) = false)
    (hsz : d.length ≤ (memCache st tier).max_bytes) :
    (get_or_generate env st path tier).1 = .error "Failed to write cache file" ∧
    (∃ e, lookupEntry (memCache (get_or_generate env st path tier).2 tier).data
        (path, m.size, m.mtime) = some e ∧ e.value = d ∧ e.byte_size = d.length) ∧
    (get_or_generate env st path tier).2.disk tier (path, m.size, m.mtime)
      = st.disk tier (path, m.size, m.mtime) := by
  cases hm : ((memCache st tier).get (path, m.size, m.mtime)).1 with
  | some dd =>
      simp only [cacheGet_eq_memhit hm] at hmiss
      exact Option.noConfusion hmiss
  | none =>
      cases hdisk : st.disk tier (path, m.size, m.mtime) with
      | some dd =>
          simp only [cacheGet_eq_diskhit hm hdisk] at hmiss
          exact Option.noConfusion hmiss
      | none =>
          have hcg := cacheGet_eq_miss hm hdisk
          rw [lruGet_miss_state hm] at hcg
          have hSt := @cacheStore_eq_fail env (setMem st tier (memCache st tier))
            (path, m.size, m.mtime) tier d hwfail
          have hE := gog_eq_store_fail hfs hcg hgen hSt
          refine ⟨?_, ?_, ?_⟩
          · simp only [hE]
          · obtain ⟨e, h1, h2, h3⟩ :=
              insert_self_present hwf (path, m.size, m.mtime) d hsz
            refine ⟨e, ?_, h2, h3⟩
            simp only [hE]
            rw [memCache_setMem_same, memCache_setMem_same]
            exact h1
          · simp only [hE]
            rw [disk_setMem, disk_setMem]
            exact hdisk

/-- C8 witness: write failure on a fresh cache with ample budget — the call
errors, the entry sits in memory, the disk file is absent. -/
theorem store_memory_before_disk_witness :
    LruWf (memCache (ThumbnailCacheState.new ⟨100, 10, 10⟩) .Micro) ∧
    c8Env.fs "p" = some ⟨3, 7⟩ ∧
    (cacheGet (ThumbnailCacheState.new ⟨100, 10, 10⟩) ("p", 3, 7) .Micro).1 = none ∧
    c8Env.gen "p" .Micro = .ok [1, 2, 3] ∧
    c8Env.writeOk .Micro ("p", 3, 7) = false ∧
    ([1, 2, 3] : List Nat).length
      ≤ (memCache (ThumbnailCacheState.new ⟨100, 10, 10⟩) .Micro).max_bytes ∧
    ((get_or_generate c8Env (ThumbnailCacheState.new ⟨100, 10, 10⟩) "p" .Micro).1
        = .error "Failed to write cache file" ∧
      (∃ e, lookupEntry (memCache (get_or_generate c8Env
          (ThumbnailCacheState.new ⟨100, 10, 10⟩) "p" .Micro).2 .Micro).data
          ("p", 3, 7) = some e ∧ e.value = [1, 2, 3] ∧ e.byte_size = 3) ∧
      (get_or_generate c8Env (ThumbnailCacheState.new ⟨100, 10, 10⟩) "p" .Micro).2.disk
          .Micro ("p", 3, 7)
        = (ThumbnailCacheState.new ⟨100, 10, 10⟩).disk .Micro ("p", 3, 7)) :=
  ⟨lruWf_new 100, rfl, rfl, rfl, rfl, by decide,
    store_memory_before_disk c8Env (ThumbnailCacheState.new ⟨100, 10, 10⟩) "p" .Micro
      ⟨3, 7⟩ [1, 2, 3] (lruWf_new 100) rfl rfl rfl rfl (by decide)⟩

/-! ## Claim C7 -/

/-- An environment with one existing path whose generation always fails. -/
def c7Env : CacheEnv :=
  { fs := fun p => if p = "x" then some ⟨1, 1⟩ else none,
    gen := fun _ _ => .error "exiftool failed",
    writeOk := fun _ _ => true }

/-- An environment where path "a" exists, path "b" does not, generation
succeeds and disk writes succeed. -/
def c7OkEnv : CacheEnv :=
  { fs := fun p => if p = "a" then some ⟨1, 1⟩ else none,
    gen := fun _ _ => .ok [9],
    writeOk := fun _ _ => true }

/-- C7 counterexample: the batch over the single existing path "x"
(M = 0 nonexistent paths) still yields one error value, because the
per-item pipeline also fails on generation (and on disk-write failure),
not only on nonexistent paths — so "exactly M are error values" is false. -/
theorem generate_batch_error_without_missing_path :
    ((["x"] : List String).filter (fun p => (c7Env.fs p).isNone)).length = 0 ∧
    ∃ l, (generate_batch c7Env (ThumbnailCacheState.new ⟨10, 10, 10⟩) ["x"] .Micro).2
        = .ok l ∧ (l.filter (fun r => exceptIsError r.2)).length = 1 :=
  ⟨rfl, [("x", .error "exiftool failed")], rfl, rfl⟩

/-- C7 (amended): for distinct paths, when every *existing* path generates
successfully and its disk write succeeds, `generate_batch` returns `Ok`
with one result per path — N results for N paths — of which exactly M are
errors, M the number of paths that do not exist on disk; no item's failure
prevents sibling items from being processed (each path's result is the
same stat-determined value regardless of its siblings). Without the
side conditions, generation or write failures add further error values. -/
theorem generate_batch_resilient (env : CacheEnv) (st : ThumbnailCacheState)
    (paths : List String) (tier : ThumbnailTier)
    (hnd : paths.Nodup)
    (hok : ∀ p ∈ paths, ∀ m, env.fs p = some m →
      (∃ d, env.gen p tier = .ok d) ∧ env.writeOk tier (p, m.size, m.mtime) = true) :
    (generate_batch env st paths tier).2
      = .ok (paths.map (fun p => (p, itemRes env tier p))) ∧
    (paths.map (fun p => (p, itemRes env tier p))).length = paths.length ∧
    ((paths.map (fun p => (p, itemRes env tier p))).filter
        (fun r => exceptIsError r.2)).length
      = (paths.filter (fun p => (env.fs p).isNone)).length := by
  have hsnd := batchFold_snd_of_ok env tier paths st [] hok
  simp only [List.nil_append] at hsnd
  have hkeysnd : ((paths.map (fun p => (p, itemRes env tier p))).map Prod.fst).Nodup := by
    rw [List.map_map]
    have hc : (Prod.fst ∘ fun p => (p, itemRes env tier p)) = fun p : String => p := rfl
    rw [hc, List.map_id']
    exact hnd
  refine ⟨?_, ?_, ?_⟩
  · show Except.ok (collectMap ((paths.foldl (batchStep env tier) (st, [])).2)) = _
    rw [hsnd, collectMap_eq_self hkeysnd]
  · exact List.length_map _ _
  · have hfun : ∀ p : String, exceptIsError (itemRes env tier p) = (env.fs p).isNone := by
      intro p
      cases hfs : env.fs p <;> simp [itemRes, hfs, exceptIsError]
    calc ((paths.map (fun p => (p, itemRes env tier p))).filter
            (fun r => exceptIsError r.2)).length
        = (paths.filter (fun p => exceptIsError (itemRes env tier p))).length :=
          length_filter_map_eq _ _ paths
      _ = (paths.filter (fun p => (env.fs p).isNone)).length := by
          rw [show (fun p => exceptIsError (itemRes env tier p))
            = (fun p : String => (env.fs p).isNone) from funext hfun]

/-- C7 witness: two distinct paths of which one exists; the batch yields
two results, exactly one an error. -/
theorem generate_batch_resilient_witness :
    (["a", "b"] : List String).Nodup ∧
    (∀ p ∈ (["a", "b"] : List String), ∀ m : FileMeta, c7OkEnv.fs p = some m →
      (∃ d, c7OkEnv.gen p .Micro = .ok d)
        ∧ c7OkEnv.writeOk .Micro (p, m.size, m.mtime) = true) ∧
    ((generate_batch c7OkEnv (ThumbnailCacheState.new ⟨10, 10, 10⟩) ["a", "b"] .Micro).2
        = .ok ((["a", "b"] : List String).map (fun p => (p, itemRes c7OkEnv .Micro p))) ∧
      ((["a", "b"] : List String).map (fun p => (p, itemRes c7OkEnv .Micro p))).length
        = (["a", "b"] : List String).length ∧
      (((["a", "b"] : List String).map (fun p => (p, itemRes c7OkEnv .Micro p))).filter
          (fun r => exceptIsError r.2)).length
        = ((["a", "b"] : List String).filter (fun p => (c7OkEnv.fs p).isNone)).length) :=
  ⟨by decide, fun _ _ _ _ => ⟨⟨[9], rfl⟩, rfl⟩,
    generate_batch_resilient c7OkEnv (ThumbnailCacheState.new ⟨10, 10, 10⟩) ["a", "b"]
      .Micro (by decide) (fun _ _ _ _ => ⟨⟨[9], rfl⟩, rfl⟩)⟩

/-! ## Claim C10 -/

/-- C10: with duplicate input paths, `generate_batch` still returns `Ok`
but the collected map has one entry per distinct path — distinct keys,
key set equal to the input's path set, and strictly fewer entries than
input elements. -/
theorem generate_batch_duplicates_collapse (env : CacheEnv) (st : ThumbnailCacheState)
    (paths : List String) (tier : ThumbnailTier) (hdup : ¬ paths.Nodup) :
    ∃ L, (generate_batch env st paths tier).2 = .ok L ∧
      (L.map Prod.fst).Nodup ∧
      (∀ p, p ∈ L.map Prod.fst ↔ p ∈ paths) ∧
      L.length < paths.length := by
  obtain ⟨hnodk, hmemk, hlt⟩ :=
    collectMap_spec ((paths.foldl (batchStep env tier) (st, [])).2)
  have hkeys : ((paths.foldl (batchStep env tier) (st, [])).2).map Prod.fst = paths := by
    rw [batchFold_keys env tier paths st []]
    simp
  refine ⟨_, rfl, hnodk, ?_, ?_⟩
  · intro p
    rw [hmemk p, hkeys]
  · have hlen : ((paths.foldl (batchStep env tier) (st, [])).2).length = paths.length := by
      calc ((paths.foldl (batchStep env tier) (st, [])).2).length
          = (((paths.foldl (batchStep env tier) (st, [])).2).map Prod.fst).length :=
            (List.length_map _ _).symm
        _ = paths.length := by rw [hkeys]
    rw [hkeys] at hlt
    exact hlen ▸ hlt hdup

/-- C10 witness: the duplicated input ["y", "y"] collapses to one entry. -/
theorem generate_batch_duplicates_collapse_witness :
    ¬ (["y", "y"] : List String).Nodup ∧
    (∃ L, (generate_batch c7Env (ThumbnailCacheState.new ⟨10, 10, 10⟩)
        ["y", "y"] .Micro).2 = .ok L ∧
      (L.map Prod.fst).Nodup ∧
      (∀ p, p ∈ L.map Prod.fst ↔ p ∈ (["y", "y"] : List String)) ∧
      L.length < (["y", "y"] : List String).length) :=
  ⟨by decide,
    generate_batch_duplicates_collapse c7Env (ThumbnailCacheState.new ⟨10, 10, 10⟩)
      ["y", "y"] .Micro (by decide)⟩

end ProjectLoupe
